import Mathlib

/-!
Shallow embedding of the core logic of the Research_paper_assistant
repository (src/process_documents.py, src/rag_pipeline.py), with theorems
checking the natural-language specification against the code.

Python strings are modelled as `List Char`; Python string slicing (with its
negative-index semantics) as `pySlice` over `Int` indices; the regex scans
used by the code (`\s+` substitution, the character allow-list, and
`re.finditer(r'[.!?]\s', ...)`) as explicit recursive character scans.
The `while` loop of `DocumentProcessor.chunk_text` has no a-priori bound in
the source, so it is embedded with an explicit iteration budget `fuel`:
`chunkIter ... fuel start = some l` states that the source loop, started at
cursor `start`, terminates within `fuel` iterations and emits the chunks `l`;
`none` states that `fuel` iterations did not reach termination.
-/

set_option autoImplicit false

namespace RPA

/-- Whitespace as matched by Python `\s` on the texts considered here
(ASCII whitespace: space, tab, newline, carriage return, vertical tab,
form feed). -/
def isPySpace (c : Char) : Bool :=
  c = ' ' || c = '\t' || c = '\n' || c = '\r' || c = '\x0b' || c = '\x0c'

/-- Conversion from string literals to the character-list model. -/
def toL (s : String) : List Char := s.toList

/-- Python `str.strip()` on the left: drop leading whitespace. -/
def dropLeadingWs (l : List Char) : List Char := l.dropWhile isPySpace

/-- Python `str.strip()` on the right: drop trailing whitespace. -/
def dropTrailingWs (l : List Char) : List Char :=
  (l.reverse.dropWhile isPySpace).reverse

/-- Python `str.strip()`: trim whitespace from both ends. -/
def stripChars (l : List Char) : List Char := dropTrailingWs (dropLeadingWs l)

/-- Resolution of one Python slice index against a string of length `len`:
negative indices count from the end, and both directions clamp into
`[0, len]`. -/
def pyResolve (len : Nat) (i : Int) : Nat :=
  if i < 0 then ((len : Int) + i).toNat.min len else i.toNat.min len

/-- Python slice `l[a:b]` (step 1), including negative-index semantics. -/
def pySlice (l : List Char) (a b : Int) : List Char :=
  (l.take (pyResolve l.length b)).drop (pyResolve l.length a)

/-- Sentence-terminator characters of the regex class `[.!?]`. -/
def isSentChar (c : Char) : Bool := c = '.' || c = '!' || c = '?'

/-- Scan underlying `sentEndings`: walks the characters left to right at
index `i`, remembering the previous character (`none` right after a match,
so matches never overlap, as with `re.finditer`). A match of `[.!?]\s`
ends just after the current character, at `i + 1`. -/
def sentEndingsAux : Option Char → List Char → Nat → List Nat
  | _, [], _ => []
  | some p, c :: rest, i =>
    if isSentChar p && isPySpace c then
      (i + 1) :: sentEndingsAux none rest (i + 1)
    else
      sentEndingsAux (some c) rest (i + 1)
  | none, c :: rest, i => sentEndingsAux (some c) rest (i + 1)

/-- End positions of the successive non-overlapping matches of the regex
`[.!?]\s` in a character list, as computed by
`[m.end() for m in re.finditer(r'[.!?]\s', search_text)]`; `i` is the
offset of the head of the list inside the searched string. -/
def sentEndings (l : List Char) (i : Nat) : List Nat :=
  sentEndingsAux none l i

/-- The `DocumentProcessor` object: `__init__` stores the two configuration
values on `self` (the source performs no validation). -/
structure DocumentProcessor where
  chunk_size : Int
  chunk_overlap : Int
deriving DecidableEq

/-- `DocumentProcessor.__init__(chunk_size, chunk_overlap)`: the constructor
body is exactly the two assignments `self.chunk_size = chunk_size` and
`self.chunk_overlap = chunk_overlap`. -/
def DocumentProcessor.init (chunk_size chunk_overlap : Int) : DocumentProcessor :=
  { chunk_size := chunk_size, chunk_overlap := chunk_overlap }

/-- One iteration's final `end` value in `DocumentProcessor.chunk_text`:
tentative `end = start + chunk_size`; if `end < len(text)`, search
`text[max(start, end-100) : end+100]` for `[.!?]\s` matches and snap to
`search_start + endings[-1]` when any exist. -/
def chunkEnd (p : DocumentProcessor) (text : List Char) (start : Int) : Int :=
  let e0 := start + p.chunk_size
  if e0 < (text.length : Int) then
    let search_start := max start (e0 - 100)
    let search_text := pySlice text search_start (e0 + 100)
    match (sentEndings search_text 0).getLast? with
    | some last => search_start + (last : Int)
    | none => e0
  else e0

/-- The `while start < len(text)` loop of `DocumentProcessor.chunk_text`,
with an explicit iteration budget. Each iteration computes
`end = chunkEnd`, strips `text[start:end]`, emits it when non-empty
(as the triple `(start_char, end_char, chunk_text)`), and advances the
cursor to `end - chunk_overlap`. `none` means the budget was exhausted
before the loop condition failed. -/
def chunkIter (p : DocumentProcessor) (text : List Char) :
    Nat → Int → Option (List (Int × Int × List Char))
  | 0, start => if start < (text.length : Int) then none else some []
  | fuel + 1, start =>
    if start < (text.length : Int) then
      let e := chunkEnd p text start
      let ct := stripChars (pySlice text start e)
      match chunkIter p text fuel (e - p.chunk_overlap) with
      | none => none
      | some rest => some (if ct.isEmpty then rest else (start, e, ct) :: rest)
    else some []

/-- Substitution `re.sub(r'\s+', ' ', text)`: every maximal run of
whitespace becomes a single space. `prevWs` records whether the previous
character belonged to a whitespace run already emitted as a space. -/
def collapseWsAux : Bool → List Char → List Char
  | _, [] => []
  | prevWs, c :: rest =>
    if isPySpace c then
      if prevWs then collapseWsAux true rest
      else ' ' :: collapseWsAux true rest
    else c :: collapseWsAux false rest

/-- Substitution `re.sub(r'\s+', ' ', text)`. -/
def collapseWs (l : List Char) : List Char := collapseWsAux false l

/-- Python `\w` on the texts considered here (ASCII core: letters, digits,
underscore); the scientific symbols the source's character class lists
explicitly are handled by `allowedChar` below. -/
def isWordChar (c : Char) : Bool := c.isAlphanum || c = '_'

/-- The character allow-list of
`re.sub(r'[^\w\s\-.,;:()[\]{}=+\-*/^<>≥≤≈∼°αβγδεζηθικλμνξοπρστυφχψω∫∂∇]', '', text)`:
characters for which this is `false` are deleted. -/
def allowedChar (c : Char) : Bool :=
  isWordChar c || isPySpace c ||
  (toL "-.,;:()[]=+*/^<>≥≤≈∼°αβγδεζηθικλμνξοπρστυφχψω∫∂∇" ++
    ['\x7b', '\x7d']).contains c

/-- `DocumentProcessor._clean_text`: collapse whitespace runs to single
spaces, delete characters outside the allow-list, then `strip()`. -/
def clean_text (text : List Char) : List Char :=
  stripChars ((collapseWs text).filter allowedChar)

/-- Values stored in the chunk dictionaries. -/
inductive Val where
  | s (v : List Char)
  | i (v : Int)
deriving DecidableEq

/-- The dictionary literal
`{'text': chunk_text, 'start_char': start, 'end_char': end}` built for each
emitted chunk. -/
def baseChunk (ct : List Char) (s e : Int) : List (String × Val) :=
  [("text", Val.s ct), ("start_char", Val.i s), ("end_char", Val.i e)]

/-- Python `dict.update`: existing keys get the updating dict's value,
new keys are appended in order. -/
def dictUpdate (base upd : List (String × Val)) : List (String × Val) :=
  base.map (fun kv =>
    match upd.lookup kv.1 with
    | some v => (kv.1, v)
    | none => kv) ++
  upd.filter (fun kv => (base.lookup kv.1).isNone)

/-- `DocumentProcessor.chunk_text(text, metadata)` producing the list of
chunk dictionaries: the loop `chunkIter`, each emitted chunk packaged as
`baseChunk` and, when `metadata` is truthy (non-empty), merged with it via
`chunk.update(metadata)`. -/
def chunk_text (p : DocumentProcessor) (text : List Char)
    (metadata : List (String × Val)) (fuel : Nat) :
    Option (List (List (String × Val))) :=
  (chunkIter p text fuel 0).map (List.map (fun t =>
    if metadata.isEmpty then baseChunk t.2.2 t.1 t.2.1
    else dictUpdate (baseChunk t.2.2 t.1 t.2.1) metadata))

/-- The metadata fields of a retrieved chunk that `build_prompt` reads
(`meta['title']`, `meta['arxiv_id']`). -/
structure ChunkMeta where
  title : List Char
  arxiv_id : List Char
deriving DecidableEq

/-- One element of the list returned by `RAGPipeline.retrieve_context`:
`{'text': ..., 'metadata': ..., 'distance': ...}`. Distances are opaque
scores passed through unchanged by the code, modelled as `Int`. -/
structure RetrievedChunk where
  text : List Char
  metadata : ChunkMeta
  distance : Int
deriving DecidableEq

/-- The f-string
`f"[Source {i}: {meta['title']} ({meta['arxiv_id']})]\n{chunk['text']}\n"`
appended to `context_parts` for the `i`-th chunk (1-based). -/
def contextPart (i : Nat) (c : RetrievedChunk) : List Char :=
  toL "[Source " ++ toL (Nat.repr i) ++ toL ": " ++ c.metadata.title ++
    toL " (" ++ c.metadata.arxiv_id ++ toL ")]\n" ++ c.text ++ toL "\n"

/-- The `context_parts` list built by
`for i, chunk in enumerate(context_chunks, 1)`. -/
def contextParts : Nat → List RetrievedChunk → List (List Char)
  | _, [] => []
  | i, c :: rest => contextPart i c :: contextParts (i + 1) rest

/-- The separator `"\n---\n".join(context_parts)` uses. -/
def sepLine : List Char := toL "\n---\n"

/-- Text of the prompt template before the inserted context block. -/
def promptIntro : List Char :=
  toL "You are a helpful research assistant. Answer the question based on the provided context from research papers.\n\nContext from research papers:\n"

/-- Text of the prompt template between the context block and the query. -/
def promptQuestion : List Char := toL "\n\nQuestion: "

/-- Text of the prompt template after the query. -/
def promptInstr : List Char :=
  toL "\n\nInstructions:\n- Answer based on the context provided above\n- If the context doesn\x27t contain enough information, say so\n- Cite which source(s) you used (by source number)\n- Be precise and scientific in your answer\n\nAnswer:"

/-- `RAGPipeline.build_prompt(query, context_chunks)`. -/
def build_prompt (query : List Char) (context_chunks : List RetrievedChunk) :
    List Char :=
  promptIntro ++ List.intercalate sepLine (contextParts 1 context_chunks) ++
    promptQuestion ++ query ++ promptInstr

/-- Substring occurrence: `a` appears verbatim and contiguously in `b`. -/
def occursIn (a b : List Char) : Prop := ∃ u v, b = u ++ a ++ v

/-- Python exceptions that `retrieve_context` can let escape. -/
inductive PyErr where
  | keyError
  | indexError
deriving DecidableEq

/-- Result dictionary returned by the external index
(`collection.query`): each field may be absent (`KeyError` on access),
and holds one inner list per query embedding. -/
structure QueryResults where
  documents : Option (List (List (List Char)))
  metadatas : Option (List (List ChunkMeta))
  distances : Option (List (List Int))

/-- Body of `for i in range(len(results['documents'][0]))` in
`RAGPipeline.retrieve_context`: the `i`-th document text, metadata and
distance are read (in that order: `results['documents'][0][i]`, then
`results['metadatas'][0][i]`, then `results['distances'][0][i]`) and
appended as one chunk; a missing key raises `KeyError`, an out-of-range
index raises `IndexError`, and either exception escapes at once. -/
def retrieveLoop (r : QueryResults) (docs0 : List (List Char)) :
    List Nat → Except PyErr (List RetrievedChunk)
  | [] => Except.ok []
  | i :: rest =>
    match docs0[i]? with
    | none => Except.error PyErr.indexError
    | some t =>
      match r.metadatas with
      | none => Except.error PyErr.keyError
      | some mAll =>
        match mAll[0]? with
        | none => Except.error PyErr.indexError
        | some m0 =>
          match m0[i]? with
          | none => Except.error PyErr.indexError
          | some m =>
            match r.distances with
            | none => Except.error PyErr.keyError
            | some dAll =>
              match dAll[0]? with
              | none => Except.error PyErr.indexError
              | some d0 =>
                match d0[i]? with
                | none => Except.error PyErr.indexError
                | some d =>
                  match retrieveLoop r docs0 rest with
                  | Except.error e => Except.error e
                  | Except.ok tail =>
                    Except.ok ({ text := t, metadata := m, distance := d } :: tail)

/-- `RAGPipeline.retrieve_context` after `self.vector_store.search`
returned `r`: iterate over the positions of `results['documents'][0]`
and build one chunk per position. -/
def retrieve_context (r : QueryResults) : Except PyErr (List RetrievedChunk) :=
  match r.documents with
  | none => Except.error PyErr.keyError
  | some dAll =>
    match dAll[0]? with
    | none => Except.error PyErr.indexError
    | some docs0 => retrieveLoop r docs0 (List.range docs0.length)

/-- Whether a call outcome is an escaped exception. -/
def exceptIsError {α β : Type} : Except α β → Bool
  | Except.error _ => true
  | Except.ok _ => false

/-- The well-formed-output shape of retrieval: one chunk per position of
`results['documents'][0]`, fields paired positionally (the `getD` defaults
are never reached when the metadata and distance lists are long enough). -/
def wellFormedChunks (docs0 : List (List Char)) (metas0 : List ChunkMeta)
    (dists0 : List Int) : List RetrievedChunk :=
  (List.range docs0.length).map (fun i =>
    { text := docs0[i]?.getD []
      metadata := metas0[i]?.getD { title := [], arxiv_id := [] }
      distance := dists0[i]?.getD 0 })

/-- Input on which the chunking loop makes no progress: at cursor `0` the
tentative end `150` is snapped back to `149`, and `149 - overlap = 0`. -/
def nonprogressText : List Char :=
  List.replicate 147 'x' ++ toL ". " ++ List.replicate 200 'y'

/-- The text of the specification's chunking scenario:
`"A. B. " + "x"*2000 + ". C."`. -/
def scenarioText : List Char :=
  toL "A. B. " ++ List.replicate 2000 'x' ++ toL ". C."

/-- All `[.!?]\s` match ends of the text lie at or below the resolved
position `len(text) + s` of a (negative) cursor `s`: while this holds, the
window can only snap to a match at or below the resolved cursor, so the
extracted slice is empty. -/
def MatchEndsClear (text : List Char) (s : Int) : Prop :=
  ∀ m ∈ sentEndings text 0, (m : Int) ≤ (text.length : Int) + s

/-- Run invariant of the chunking-loop cursor under a valid configuration:
the cursor is non-negative, or it lies at most `overlap` below zero, the
chunk size fits the text, and — when the text is short enough for search
windows to reach its end (`len < size + 100`) — no match end lies beyond
the cursor's resolved position. -/
def GoodCursor (p : DocumentProcessor) (text : List Char) (s : Int) : Prop :=
  0 ≤ s ∨ (-p.chunk_overlap ≤ s ∧ p.chunk_size ≤ (text.length : Int) ∧
    ((text.length : Int) < p.chunk_size + 100 → MatchEndsClear text s))

/-! ### Helper lemmas -/

/-- Once the cursor has reached the end of the text, the loop stops at once,
whatever the remaining budget. -/
lemma chunkIter_done (p : DocumentProcessor) (text : List Char) (fuel : Nat)
    (start : Int) (h : ¬ start < (text.length : Int)) :
    chunkIter p text fuel start = some [] := by
  cases fuel <;> simp [chunkIter, h]

/-- Bounds on the match end positions produced by the scanner. -/
lemma sentEndingsAux_mem_bounds :
    ∀ (l : List Char) (prev : Option Char) (i x : Nat),
      x ∈ sentEndingsAux prev l i → i + 1 ≤ x ∧ x ≤ i + l.length := by
  intro l
  induction l with
  | nil => intro prev i x hx; cases prev <;> simp [sentEndingsAux] at hx
  | cons c rest ih =>
    intro prev i x hx
    cases prev with
    | none =>
      simp only [sentEndingsAux] at hx
      have := ih (some c) (i + 1) x hx
      simp only [List.length_cons]; omega
    | some p =>
      simp only [sentEndingsAux] at hx
      by_cases h : isSentChar p && isPySpace c
      · rw [if_pos h] at hx
        rcases List.mem_cons.mp hx with h1 | h1
        · subst h1; simp only [List.length_cons]; omega
        · have := ih none (i + 1) x h1
          simp only [List.length_cons]; omega
      · rw [if_neg h] at hx
        have := ih (some c) (i + 1) x hx
        simp only [List.length_cons]; omega

/-- Every match end reported by `sentEndings l i` lies in `[i+2, i+len l]`. -/
lemma sentEndings_mem_bounds (l : List Char) (i x : Nat)
    (hx : x ∈ sentEndings l i) : i + 2 ≤ x ∧ x ≤ i + l.length := by
  cases l with
  | nil => simp [sentEndings, sentEndingsAux] at hx
  | cons c rest =>
    have h1 : x ∈ sentEndingsAux (some c) rest (i + 1) := hx
    have := sentEndingsAux_mem_bounds rest (some c) (i + 1) x h1
    simp only [List.length_cons]; omega

/-- A slice index always resolves into `[0, len]`. -/
lemma pyResolve_le (len : Nat) (i : Int) : pyResolve len i ≤ len := by
  unfold pyResolve
  split <;> simp [Nat.min_le_right]

/-- Slice length plus resolved lower index never exceeds the string length. -/
lemma pySlice_length_add (l : List Char) (a b : Int) :
    (pySlice l a b).length + pyResolve l.length a ≤ l.length := by
  unfold pySlice
  have h1 : pyResolve l.length a ≤ l.length := pyResolve_le l.length a
  have h2 : (l.take (pyResolve l.length b)).length =
      min (pyResolve l.length b) l.length := List.length_take _ _
  have h3 : pyResolve l.length b ≤ l.length := pyResolve_le l.length b
  simp only [List.length_drop, h2]
  omega

/-- Characters of a slice are characters of the sliced string. -/
lemma pySlice_subset (l : List Char) (a b : Int) (c : Char)
    (h : c ∈ pySlice l a b) : c ∈ l := by
  unfold pySlice at h
  exact List.take_subset _ _ (List.drop_subset _ _ h)

/-- A character that does not satisfy the predicate survives `dropWhile`. -/
lemma mem_dropWhile_of_not (p : Char → Bool) :
    ∀ (l : List Char) (c : Char), c ∈ l → p c = false → c ∈ l.dropWhile p := by
  intro l
  induction l with
  | nil => intro c h; cases h
  | cons a rest ih =>
    intro c hc hp
    by_cases ha : p a
    · rw [List.dropWhile_cons_of_pos ha]
      rcases List.mem_cons.mp hc with h1 | h1
      · subst h1; rw [hp] at ha; cases ha
      · exact ih c h1 hp
    · rw [List.dropWhile_cons_of_neg ha]
      exact hc

/-- `strip()` removes only whitespace: non-whitespace characters survive. -/
lemma mem_stripChars (l : List Char) (c : Char) (hc : c ∈ l)
    (hp : isPySpace c = false) : c ∈ stripChars l := by
  unfold stripChars dropTrailingWs dropLeadingWs
  have h1 : c ∈ l.dropWhile isPySpace := mem_dropWhile_of_not _ l c hc hp
  have h2 : c ∈ (l.dropWhile isPySpace).reverse := List.mem_reverse.mpr h1
  have h3 := mem_dropWhile_of_not isPySpace _ c h2 hp
  exact List.mem_reverse.mpr h3

/-- `strip()` of a string containing a non-whitespace character is
non-empty. -/
lemma stripChars_ne_nil (l : List Char) (c : Char) (hc : c ∈ l)
    (hp : isPySpace c = false) : stripChars l ≠ [] := by
  intro h
  have := mem_stripChars l c hc hp
  rw [h] at this
  cases this

/-- The scanner finds no match in a string with no whitespace character. -/
lemma sentEndingsAux_eq_nil_of_noWs :
    ∀ (l : List Char), (∀ c ∈ l, isPySpace c = false) →
      ∀ (prev : Option Char) (i : Nat), sentEndingsAux prev l i = [] := by
  intro l
  induction l with
  | nil => intro _ prev i; cases prev <;> rfl
  | cons c rest ih =>
    intro h prev i
    have hc : isPySpace c = false := h c (List.mem_cons_self _ _)
    have hrest : ∀ x ∈ rest, isPySpace x = false :=
      fun x hx => h x (List.mem_cons_of_mem _ hx)
    cases prev with
    | none => exact ih hrest (some c) (i + 1)
    | some p =>
      have hcond : (isSentChar p && isPySpace c) = false := by
        rw [hc, Bool.and_false]
      simp only [sentEndingsAux, hcond, Bool.false_eq_true, if_false]
      exact ih hrest (some c) (i + 1)

/-- An element reported by `getLast?` belongs to the list. -/
lemma mem_of_getLast?_eq {α : Type} {l : List α} {x : α}
    (h : l.getLast? = some x) : x ∈ l := by
  rcases List.mem_getLast?_eq_getLast (Option.mem_def.mpr h) with ⟨h1, h2⟩
  exact h2 ▸ List.getLast_mem h1

/-- The loop's `end` always lies strictly beyond the cursor (the tentative
end does because `chunk_size` is positive, and a snapped end lies at least
two characters past `max(start, end - 100) ≥ start`). -/
lemma chunkEnd_gt (p : DocumentProcessor) (text : List Char) (start : Int)
    (hcs : 0 < p.chunk_size) : start < chunkEnd p text start := by
  by_cases h : start + p.chunk_size < (text.length : Int)
  · simp only [chunkEnd, if_pos h]
    rcases hlast : (sentEndings (pySlice text (max start (start + p.chunk_size - 100))
      (start + p.chunk_size + 100)) 0).getLast? with _ | last
    · simp only [hlast]; omega
    · simp only [hlast]
      have hmem := mem_of_getLast?_eq hlast
      have := sentEndings_mem_bounds _ 0 last hmem
      have h1 : start ≤ max start (start + p.chunk_size - 100) := le_max_left _ _
      omega
  · simp only [chunkEnd, if_neg h]; omega

/-- The loop's `end` never exceeds `max(len(text), start + chunk_size)`:
an unsnapped end is exactly `start + chunk_size`, and a snapped end stays
inside the text (or below zero when the cursor itself is negative). -/
lemma chunkEnd_le (p : DocumentProcessor) (text : List Char) (start : Int) :
    chunkEnd p text start ≤ max (text.length : Int) (start + p.chunk_size) := by
  by_cases h : start + p.chunk_size < (text.length : Int)
  · simp only [chunkEnd, if_pos h]
    rcases hlast : (sentEndings (pySlice text (max start (start + p.chunk_size - 100))
      (start + p.chunk_size + 100)) 0).getLast? with _ | last
    · simp only [hlast]; omega
    · simp only [hlast]
      set ss := max start (start + p.chunk_size - 100) with hss
      set w := pySlice text ss (start + p.chunk_size + 100) with hw
      have hmem := mem_of_getLast?_eq hlast
      have hb := sentEndings_mem_bounds w 0 last hmem
      have hadd := pySlice_length_add text ss (start + p.chunk_size + 100)
      rw [← hw] at hadd
      have hlen : w.length ≤ text.length := le_trans (Nat.le_add_right _ _) hadd
      by_cases hneg : ss < 0
      · omega
      · have hres : pyResolve text.length ss = min ss.toNat text.length := by
          unfold pyResolve
          rw [if_neg hneg]
        rw [hres] at hadd
        by_cases hss2 : ss.toNat ≤ text.length
        · have h1 : min ss.toNat text.length = ss.toNat := Nat.min_eq_left hss2
          rw [h1] at hadd
          have h2 : (ss.toNat : Int) = ss := Int.toNat_of_nonneg (by omega)
          omega
        · have h1 : min ss.toNat text.length = text.length :=
            Nat.min_eq_right (by omega)
          rw [h1] at hadd
          have hwnil : w.length = 0 := by omega
          have hnil : w = [] := List.length_eq_zero.mp hwnil
          rw [hnil] at hmem
          simp [sentEndings, sentEndingsAux] at hmem
  · simp only [chunkEnd, if_neg h]; omega

/-- Per-chunk invariant of the loop: every emitted triple `(s, e, ct)` has
`s < e`, `e ≤ max(len(text), s + chunk_size)`, and `ct` equal to the
non-empty stripped slice `text[s:e]`. -/
lemma chunkIter_mem_spec (p : DocumentProcessor) (text : List Char)
    (hcs : 0 < p.chunk_size) :
    ∀ (fuel : Nat) (start : Int) (l : List (Int × Int × List Char)),
      chunkIter p text fuel start = some l →
      ∀ t ∈ l, t.1 < t.2.1 ∧
        t.2.1 ≤ max (text.length : Int) (t.1 + p.chunk_size) ∧
        t.2.2 = stripChars (pySlice text t.1 t.2.1) ∧ t.2.2 ≠ [] := by
  intro fuel
  induction fuel with
  | zero =>
    intro start l h t ht
    by_cases hc : start < (text.length : Int)
    · simp [chunkIter, hc] at h
    · simp only [chunkIter, if_neg hc, Option.some.injEq] at h
      subst h
      cases ht
  | succ f ih =>
    intro start l h t ht
    by_cases hc : start < (text.length : Int)
    · simp only [chunkIter, if_pos hc] at h
      rcases hrec : chunkIter p text f (chunkEnd p text start - p.chunk_overlap)
        with _ | rest
      · rw [hrec] at h; cases h
      · rw [hrec] at h
        simp only [Option.some.injEq] at h
        subst h
        by_cases hct : (stripChars (pySlice text start (chunkEnd p text start))).isEmpty
        · rw [if_pos hct] at ht
          exact ih _ rest hrec t ht
        · rw [if_neg hct] at ht
          rcases List.mem_cons.mp ht with h1 | h1
          · subst h1
            refine ⟨chunkEnd_gt p text start hcs, chunkEnd_le p text start, rfl, ?_⟩
            intro hn
            have hn' : stripChars (pySlice text start (chunkEnd p text start)) = [] := hn
            rw [hn'] at hct
            exact hct rfl
          · exact ih _ rest hrec t h1
    · simp only [chunkIter, if_neg hc, Option.some.injEq] at h
      subst h
      cases ht

/-! ### Scanner characterization and cursor-sign invariant -/

/-- The regex classes `[.!?]` and `\s` are disjoint: a sentence terminator
is never whitespace. -/
lemma sent_not_space (c : Char) (h : isSentChar c = true) : isPySpace c = false := by
  unfold isSentChar at h
  simp only [Bool.or_eq_true, decide_eq_true_eq] at h
  rcases h with (h | h) | h <;> subst h <;> rfl

/-- When the previous character is a terminator and the current one is
whitespace, the scanner reports a match ending at the current position. -/
lemma sentEndingsAux_head_mem (p c : Char) (t : List Char) (i : Nat)
    (hp : isSentChar p = true) (hc : isPySpace c = true) :
    i + 1 ∈ sentEndingsAux (some p) (c :: t) i := by
  have hcond : (isSentChar p && isPySpace c) = true := by rw [hp, hc]; rfl
  simp only [sentEndingsAux, hcond, if_true]
  exact List.mem_cons_self _ _

/-- Completeness of the scanner: every terminator-whitespace pair is
reported as a match end (the non-overlapping scan never hides a pair,
because the two character classes are disjoint). -/
lemma sentEndingsAux_complete :
    ∀ (l : List Char) (prev : Option Char) (i j : Nat) (c d : Char),
      l[j]? = some c → isSentChar c = true → l[j+1]? = some d →
      isPySpace d = true → i + j + 2 ∈ sentEndingsAux prev l i := by
  intro l
  induction l with
  | nil => intro prev i j c d hc _ _ _; simp at hc
  | cons a t ih =>
    intro prev i j c d hc hsc hd hsd
    cases prev with
    | none =>
      show i + j + 2 ∈ sentEndingsAux (some a) t (i + 1)
      cases j with
      | zero =>
        rw [List.getElem?_cons_zero] at hc
        have hca := Option.some.inj hc
        rw [List.getElem?_cons_succ] at hd
        cases t with
        | nil => simp at hd
        | cons b t' =>
          rw [List.getElem?_cons_zero] at hd
          have hbd := Option.some.inj hd
          rw [← hca] at hsc
          rw [← hbd] at hsd
          exact sentEndingsAux_head_mem a b t' (i + 1) hsc hsd
      | succ j' =>
        rw [List.getElem?_cons_succ] at hc hd
        have hrec := ih (some a) (i + 1) j' c d hc hsc hd hsd
        have harith : i + (j' + 1) + 2 = i + 1 + j' + 2 := by omega
        rw [harith]
        exact hrec
    | some p =>
      by_cases hcond : (isSentChar p && isPySpace a) = true
      · have heq : sentEndingsAux (some p) (a :: t) i =
            (i + 1) :: sentEndingsAux none t (i + 1) := by
          simp only [sentEndingsAux, hcond, if_true]
        rw [heq]
        cases j with
        | zero =>
          rw [List.getElem?_cons_zero] at hc
          have hca := Option.some.inj hc
          rw [Bool.and_eq_true] at hcond
          have hsp : isPySpace a = true := hcond.2
          rw [hca, sent_not_space c hsc] at hsp
          cases hsp
        | succ j' =>
          rw [List.getElem?_cons_succ] at hc hd
          have hrec := ih none (i + 1) j' c d hc hsc hd hsd
          have harith : i + (j' + 1) + 2 = i + 1 + j' + 2 := by omega
          rw [harith]
          exact List.mem_cons_of_mem _ hrec
      · have heq : sentEndingsAux (some p) (a :: t) i =
            sentEndingsAux (some a) t (i + 1) := by
          simp [sentEndingsAux, hcond]
        rw [heq]
        cases j with
        | zero =>
          rw [List.getElem?_cons_zero] at hc
          have hca := Option.some.inj hc
          rw [List.getElem?_cons_succ] at hd
          cases t with
          | nil => simp at hd
          | cons b t' =>
            rw [List.getElem?_cons_zero] at hd
            have hbd := Option.some.inj hd
            rw [← hca] at hsc
            rw [← hbd] at hsd
            exact sentEndingsAux_head_mem a b t' (i + 1) hsc hsd
        | succ j' =>
          rw [List.getElem?_cons_succ] at hc hd
          have hrec := ih (some a) (i + 1) j' c d hc hsc hd hsd
          have harith : i + (j' + 1) + 2 = i + 1 + j' + 2 := by omega
          rw [harith]
          exact hrec

/-- Soundness of the scanner: every reported match end comes either from a
pair straddling the remembered previous character, or from a
terminator-whitespace pair inside the scanned list. -/
lemma sentEndingsAux_sound :
    ∀ (l : List Char) (prev : Option Char) (i x : Nat),
      x ∈ sentEndingsAux prev l i →
      (∃ pc, prev = some pc ∧ x = i + 1 ∧ isSentChar pc = true ∧
        ∃ d t', l = d :: t' ∧ isPySpace d = true) ∨
      (∃ j c d, x = i + j + 2 ∧ l[j]? = some c ∧ isSentChar c = true ∧
        l[j+1]? = some d ∧ isPySpace d = true) := by
  intro l
  induction l with
  | nil => intro prev i x hx; cases prev <;> simp [sentEndingsAux] at hx
  | cons a t ih =>
    intro prev i x hx
    cases prev with
    | none =>
      have hx' : x ∈ sentEndingsAux (some a) t (i + 1) := hx
      rcases ih (some a) (i + 1) x hx' with
        ⟨pc, hpc, hxe, hsc, d, t', ht, hsd⟩ | ⟨j, c, d, hxe, hc, hsc, hd, hsd⟩
      · right
        have hpa := Option.some.inj hpc
        rw [← hpa] at hsc
        refine ⟨0, a, d, by omega, List.getElem?_cons_zero, hsc, ?_, hsd⟩
        rw [List.getElem?_cons_succ, ht, List.getElem?_cons_zero]
      · right
        exact ⟨j + 1, c, d, by omega,
          by rw [List.getElem?_cons_succ]; exact hc, hsc,
          by rw [List.getElem?_cons_succ]; exact hd, hsd⟩
    | some p =>
      by_cases hcond : (isSentChar p && isPySpace a) = true
      · have heq : sentEndingsAux (some p) (a :: t) i =
            (i + 1) :: sentEndingsAux none t (i + 1) := by
          simp only [sentEndingsAux, hcond, if_true]
        rw [heq] at hx
        rcases List.mem_cons.mp hx with h1 | h1
        · left
          rw [Bool.and_eq_true] at hcond
          exact ⟨p, rfl, h1, hcond.1, a, t, rfl, hcond.2⟩
        · rcases ih none (i + 1) x h1 with
            ⟨pc, hpc, _⟩ | ⟨j, c, d, hxe, hc, hsc, hd, hsd⟩
          · cases hpc
          · right
            exact ⟨j + 1, c, d, by omega,
              by rw [List.getElem?_cons_succ]; exact hc, hsc,
              by rw [List.getElem?_cons_succ]; exact hd, hsd⟩
      · have heq : sentEndingsAux (some p) (a :: t) i =
            sentEndingsAux (some a) t (i + 1) := by
          simp [sentEndingsAux, hcond]
        rw [heq] at hx
        rcases ih (some a) (i + 1) x hx with
          ⟨pc, hpc, hxe, hsc, d, t', ht, hsd⟩ | ⟨j, c, d, hxe, hc, hsc, hd, hsd⟩
        · right
          have hpa := Option.some.inj hpc
          rw [← hpa] at hsc
          refine ⟨0, a, d, by omega, List.getElem?_cons_zero, hsc, ?_, hsd⟩
          rw [List.getElem?_cons_succ, ht, List.getElem?_cons_zero]
        · right
          exact ⟨j + 1, c, d, by omega,
            by rw [List.getElem?_cons_succ]; exact hc, hsc,
            by rw [List.getElem?_cons_succ]; exact hd, hsd⟩

/-- A position is a match end of `sentEndings l 0` exactly when a
terminator-whitespace pair ends there. -/
lemma mem_sentEndings_iff (l : List Char) (x : Nat) :
    x ∈ sentEndings l 0 ↔ ∃ j c d, x = j + 2 ∧ l[j]? = some c ∧
      isSentChar c = true ∧ l[j+1]? = some d ∧ isPySpace d = true := by
  constructor
  · intro hx
    rcases sentEndingsAux_sound l none 0 x hx with ⟨pc, hpc, _⟩ | ⟨j, c, d, h⟩
    · cases hpc
    · exact ⟨j, c, d, by omega, h.2.1, h.2.2.1, h.2.2.2.1, h.2.2.2.2⟩
  · rintro ⟨j, c, d, hx, hc, hsc, hd, hsd⟩
    subst hx
    have hrec := sentEndingsAux_complete l none 0 j c d hc hsc hd hsd
    simpa using hrec

/-- Every match end reported by the scanner is at most the last one: the
scan runs left to right, so the reported list is increasing. -/
lemma sentEndingsAux_le_getLast :
    ∀ (l : List Char) (prev : Option Char) (i x last : Nat),
      (sentEndingsAux prev l i).getLast? = some last →
      x ∈ sentEndingsAux prev l i → x ≤ last := by
  intro l
  induction l with
  | nil => intro prev i x last _ hx; cases prev <;> simp [sentEndingsAux] at hx
  | cons a t ih =>
    intro prev i x last h hx
    cases prev with
    | none => exact ih (some a) (i + 1) x last h hx
    | some p =>
      by_cases hcond : (isSentChar p && isPySpace a) = true
      · have heq : sentEndingsAux (some p) (a :: t) i =
            (i + 1) :: sentEndingsAux none t (i + 1) := by
          simp only [sentEndingsAux, hcond, if_true]
        rw [heq] at h hx
        rcases hrest : sentEndingsAux none t (i + 1) with _ | ⟨b, bs⟩
        · rw [hrest] at h hx
          simp only [List.getLast?_singleton, Option.some.injEq] at h
          rcases List.mem_cons.mp hx with h1 | h1
          · omega
          · cases h1
        · rw [hrest] at h hx
          rw [List.getLast?_cons_cons] at h
          rcases List.mem_cons.mp hx with h1 | h1
          · have hl : last ∈ sentEndingsAux none t (i + 1) := by
              rw [hrest]
              exact mem_of_getLast?_eq h
            have hbnd := sentEndingsAux_mem_bounds t none (i + 1) last hl
            omega
          · exact ih none (i + 1) x last (by rw [hrest]; exact h)
              (by rw [hrest]; exact h1)
      · have heq : sentEndingsAux (some p) (a :: t) i =
            sentEndingsAux (some a) t (i + 1) := by
          simp [sentEndingsAux, hcond]
        rw [heq] at h hx
        exact ih (some a) (i + 1) x last h hx

/-- `getLast?` wrapper of the previous lemma for `sentEndings`. -/
lemma sentEndings_le_getLast (l : List Char) (x last : Nat)
    (h : (sentEndings l 0).getLast? = some last) (hx : x ∈ sentEndings l 0) :
    x ≤ last :=
  sentEndingsAux_le_getLast l none 0 x last h hx

/-- Element access into `List.take`, totalised with `none` out of range. -/
lemma getElem?_take_eq (l : List Char) (n k : Nat) :
    (l.take n)[k]? = if k < n then l[k]? else none :=
  List.getElem?_take

/-- Element access into a Python slice, in terms of the resolved bounds. -/
lemma pySlice_getElem? (l : List Char) (a b : Int) (j : Nat) :
    (pySlice l a b)[j]? =
      if pyResolve l.length a + j < pyResolve l.length b
      then l[pyResolve l.length a + j]? else none := by
  unfold pySlice
  rw [List.getElem?_drop, getElem?_take_eq]

/-- Resolution of a negative index that stays inside the string. -/
lemma pyResolve_int_neg (len : Nat) (i : Int) (hneg : i < 0)
    (h0 : 0 ≤ (len : Int) + i) : (pyResolve len i : Int) = (len : Int) + i := by
  unfold pyResolve
  rw [if_pos hneg]
  simp only [Nat.min_def]
  split <;> omega

/-- Resolution of a non-negative index that stays inside the string. -/
lemma pyResolve_int_nonneg (len : Nat) (i : Int) (h0 : 0 ≤ i)
    (hle : i ≤ (len : Int)) : (pyResolve len i : Int) = i := by
  unfold pyResolve
  rw [if_neg (by omega)]
  simp only [Nat.min_def]
  split <;> omega

/-- Resolution of an index at or past the end of the string. -/
lemma pyResolve_int_ge (len : Nat) (i : Int) (hge : (len : Int) ≤ i) :
    pyResolve len i = len := by
  unfold pyResolve
  rw [if_neg (by omega)]
  simp only [Nat.min_def]
  split <;> omega

/-- A slice whose resolved upper bound is at or below its resolved lower
bound is empty. -/
lemma pySlice_eq_nil_of_le (l : List Char) (a b : Int)
    (h : pyResolve l.length b ≤ pyResolve l.length a) : pySlice l a b = [] := by
  unfold pySlice
  apply List.drop_eq_nil_of_le
  rw [List.length_take]
  omega

/-- A match found in a slice is a match of the full string at the offset of
the slice's resolved lower bound, and ends within the resolved range. -/
lemma sentEndings_slice_abs (l : List Char) (a b : Int) (x : Nat)
    (hx : x ∈ sentEndings (pySlice l a b) 0) :
    pyResolve l.length a + x ∈ sentEndings l 0 ∧
      pyResolve l.length a + x ≤ pyResolve l.length b := by
  rcases (mem_sentEndings_iff _ x).mp hx with ⟨j, c, d, hxe, hc, hsc, hd, hsd⟩
  rw [pySlice_getElem?] at hc hd
  by_cases h1 : pyResolve l.length a + j < pyResolve l.length b
  · rw [if_pos h1] at hc
    by_cases h2 : pyResolve l.length a + (j + 1) < pyResolve l.length b
    · rw [if_pos h2] at hd
      subst hxe
      constructor
      · apply (mem_sentEndings_iff l _).mpr
        refine ⟨pyResolve l.length a + j, c, d, by omega, hc, hsc, ?_, hsd⟩
        rw [show pyResolve l.length a + j + 1 =
          pyResolve l.length a + (j + 1) from by omega]
        exact hd
      · omega
    · rw [if_neg h2] at hd
      cases hd
  · rw [if_neg h1] at hc
    cases hc

/-- A match of the full string that lies inside a slice's resolved range is
found in the slice at the corresponding relative position. -/
lemma sentEndings_slice_of_abs (l : List Char) (a b : Int) (m : Nat)
    (hm : m ∈ sentEndings l 0) (hlo : pyResolve l.length a + 2 ≤ m)
    (hhi : m ≤ pyResolve l.length b) :
    m - pyResolve l.length a ∈ sentEndings (pySlice l a b) 0 := by
  rcases (mem_sentEndings_iff _ m).mp hm with ⟨j, c, d, hme, hc, hsc, hd, hsd⟩
  apply (mem_sentEndings_iff _ _).mpr
  refine ⟨j - pyResolve l.length a, c, d, by omega, ?_, hsc, ?_, hsd⟩
  · rw [pySlice_getElem?, if_pos (by omega),
      show pyResolve l.length a + (j - pyResolve l.length a) = j from by omega]
    exact hc
  · rw [pySlice_getElem?, if_pos (by omega),
      show pyResolve l.length a + (j - pyResolve l.length a + 1) = j + 1 from by omega]
    exact hd

/-- At a reachable negative cursor the loop's `end` is positive and stays
at or below the cursor's resolved position `len + s` (hence the slice
`text[s:end]` is empty and nothing is emitted), and the clear-zone
invariant transfers to the next cursor. -/
lemma chunkEnd_neg_spec (p : DocumentProcessor) (text : List Char) (s : Int)
    (hcs : 0 < p.chunk_size) (hov : 0 ≤ p.chunk_overlap)
    (hlt : p.chunk_overlap < p.chunk_size) (hsneg : s < 0)
    (hsov : -p.chunk_overlap ≤ s) (hcsN : p.chunk_size ≤ (text.length : Int))
    (hclear : (text.length : Int) < p.chunk_size + 100 → MatchEndsClear text s) :
    0 < chunkEnd p text s ∧ chunkEnd p text s ≤ (text.length : Int) + s ∧
      ((text.length : Int) < p.chunk_size + 100 →
        MatchEndsClear text (chunkEnd p text s - p.chunk_overlap)) := by
  have hsnap : s + p.chunk_size < (text.length : Int) := by omega
  simp only [chunkEnd, if_pos hsnap]
  rcases hlast : (sentEndings (pySlice text (max s (s + p.chunk_size - 100))
      (s + p.chunk_size + 100)) 0).getLast? with _ | last
  · simp only [hlast]
    refine ⟨by omega, by omega, ?_⟩
    intro hN m hm
    have hcl := hclear hN m hm
    omega
  · simp only [hlast]
    have hmem := mem_of_getLast?_eq hlast
    have hbnd := sentEndings_mem_bounds _ 0 last hmem
    have habs := sentEndings_slice_abs text (max s (s + p.chunk_size - 100))
      (s + p.chunk_size + 100) last hmem
    have hss_ge : s ≤ max s (s + p.chunk_size - 100) := le_max_left _ _
    have hss_le : max s (s + p.chunk_size - 100) ≤ s + p.chunk_size :=
      max_le (by omega) (by omega)
    by_cases hss : 0 ≤ max s (s + p.chunk_size - 100)
    · have hA : (pyResolve text.length (max s (s + p.chunk_size - 100)) : Int) =
          max s (s + p.chunk_size - 100) :=
        pyResolve_int_nonneg _ _ hss (by omega)
      by_cases hN : (text.length : Int) < p.chunk_size + 100
      · have hMle := hclear hN _ habs.1
        rw [Nat.cast_add, hA] at hMle
        refine ⟨by omega, by omega, ?_⟩
        intro _ m hm
        by_cases hme : (m : Int) ≤ max s (s + p.chunk_size - 100) + (last : Int)
        · omega
        · exfalso
          have hBge : (text.length : Int) + s ≤
              (pyResolve text.length (s + p.chunk_size + 100) : Int) := by
            by_cases hbig : (text.length : Int) ≤ s + p.chunk_size + 100
            · rw [pyResolve_int_ge text.length _ hbig]
              omega
            · rw [pyResolve_int_nonneg text.length _ (by omega) (by omega)]
              omega
          have hmc := hclear hN m hm
          have hvis := sentEndings_slice_of_abs text
            (max s (s + p.chunk_size - 100)) (s + p.chunk_size + 100) m hm
            (by omega) (by omega)
          have hle := sentEndings_le_getLast _ _ _ hlast hvis
          omega
      · push_neg at hN
        have hB : (pyResolve text.length (s + p.chunk_size + 100) : Int) =
            s + p.chunk_size + 100 :=
          pyResolve_int_nonneg _ _ (by omega) (by omega)
        have hMle : ((pyResolve text.length (max s (s + p.chunk_size - 100)) +
            last : Nat) : Int) ≤
            (pyResolve text.length (s + p.chunk_size + 100) : Int) := by
          exact_mod_cast habs.2
        rw [Nat.cast_add, hA, hB] at hMle
        refine ⟨by omega, by omega, ?_⟩
        intro hcontra
        exact absurd hcontra (by omega)
    · exfalso
      push_neg at hss
      have hA : (pyResolve text.length (max s (s + p.chunk_size - 100)) : Int) =
          (text.length : Int) + max s (s + p.chunk_size - 100) :=
        pyResolve_int_neg _ _ hss (by omega)
      have hMhi : ((pyResolve text.length (max s (s + p.chunk_size - 100)) +
          last : Nat) : Int) ≤ (text.length : Int) + s := by
        by_cases hN : (text.length : Int) < p.chunk_size + 100
        · exact hclear hN _ habs.1
        · push_neg at hN
          have hB : (pyResolve text.length (s + p.chunk_size + 100) : Int) =
              s + p.chunk_size + 100 :=
            pyResolve_int_nonneg _ _ (by omega) (by omega)
          have h2 : ((pyResolve text.length (max s (s + p.chunk_size - 100)) +
              last : Nat) : Int) ≤
              (pyResolve text.length (s + p.chunk_size + 100) : Int) := by
            exact_mod_cast habs.2
          omega
      rw [Nat.cast_add, hA] at hMhi
      omega

/-- When the loop leaves a non-negative cursor and the next cursor is
negative, a snap to a window match occurred; then the chunk size fits the
text, and the clear-zone invariant holds at the next cursor (the snapped
match was the last one in a window that reaches the end of the text). -/
lemma chunkEnd_pos_spec (p : DocumentProcessor) (text : List Char) (s : Int)
    (hcs : 0 < p.chunk_size) (hov : 0 ≤ p.chunk_overlap)
    (hlt : p.chunk_overlap < p.chunk_size) (hs : 0 ≤ s)
    (hneg : chunkEnd p text s - p.chunk_overlap < 0) :
    p.chunk_size ≤ (text.length : Int) ∧
      ((text.length : Int) < p.chunk_size + 100 →
        MatchEndsClear text (chunkEnd p text s - p.chunk_overlap)) := by
  by_cases hsnap : s + p.chunk_size < (text.length : Int)
  · simp only [chunkEnd, if_pos hsnap] at hneg ⊢
    rcases hlast : (sentEndings (pySlice text (max s (s + p.chunk_size - 100))
        (s + p.chunk_size + 100)) 0).getLast? with _ | last
    · simp only [hlast] at hneg
      exact absurd hneg (by omega)
    · simp only [hlast] at hneg ⊢
      refine ⟨by omega, ?_⟩
      intro hN m hm
      have hmem := mem_of_getLast?_eq hlast
      have hbnd := sentEndings_mem_bounds _ 0 last hmem
      have hmbnd := sentEndings_mem_bounds text 0 m hm
      have hss : (0 : Int) ≤ max s (s + p.chunk_size - 100) :=
        le_trans hs (le_max_left _ _)
      have hss_le : max s (s + p.chunk_size - 100) ≤ s + p.chunk_size :=
        max_le (by omega) (by omega)
      have hA : (pyResolve text.length (max s (s + p.chunk_size - 100)) : Int) =
          max s (s + p.chunk_size - 100) :=
        pyResolve_int_nonneg _ _ hss (by omega)
      have hB : pyResolve text.length (s + p.chunk_size + 100) = text.length :=
        pyResolve_int_ge _ _ (by omega)
      by_cases hme : (m : Int) ≤ max s (s + p.chunk_size - 100) + (last : Int)
      · omega
      · exfalso
        have hvis := sentEndings_slice_of_abs text
          (max s (s + p.chunk_size - 100)) (s + p.chunk_size + 100) m hm
          (by omega) (by omega)
        have hle := sentEndings_le_getLast _ _ _ hlast hvis
        omega
  · simp only [chunkEnd, if_neg hsnap] at hneg
    exact absurd hneg (by omega)

/-- For a valid configuration the loop never emits a chunk at a negative
cursor: every chunk emitted from a cursor satisfying the run invariant has
non-negative `start_char`. -/
lemma chunkIter_starts_nonneg (p : DocumentProcessor) (text : List Char)
    (hcs : 0 < p.chunk_size) (hov : 0 ≤ p.chunk_overlap)
    (hlt : p.chunk_overlap < p.chunk_size) :
    ∀ (fuel : Nat) (start : Int) (l : List (Int × Int × List Char)),
      GoodCursor p text start → chunkIter p text fuel start = some l →
      ∀ t ∈ l, 0 ≤ t.1 := by
  intro fuel
  induction fuel with
  | zero =>
    intro start l _ h t ht
    by_cases hc : start < (text.length : Int)
    · simp [chunkIter, hc] at h
    · simp only [chunkIter, if_neg hc, Option.some.injEq] at h
      subst h
      cases ht
  | succ f ih =>
    intro start l hgood h t ht
    by_cases hc : start < (text.length : Int)
    · simp only [chunkIter, if_pos hc] at h
      rcases hrec : chunkIter p text f (chunkEnd p text start - p.chunk_overlap)
        with _ | rest
      · rw [hrec] at h
        cases h
      · rw [hrec] at h
        simp only [Option.some.injEq] at h
        subst h
        by_cases hsn : 0 ≤ start
        · have hnext : GoodCursor p text
              (chunkEnd p text start - p.chunk_overlap) := by
            by_cases h0 : 0 ≤ chunkEnd p text start - p.chunk_overlap
            · exact Or.inl h0
            · push_neg at h0
              obtain ⟨h1, h2⟩ := chunkEnd_pos_spec p text start hcs hov hlt hsn h0
              refine Or.inr ⟨?_, h1, h2⟩
              have hgt := chunkEnd_gt p text start hcs
              omega
          by_cases hct : (stripChars
              (pySlice text start (chunkEnd p text start))).isEmpty
          · rw [if_pos hct] at ht
            exact ih _ rest hnext hrec t ht
          · rw [if_neg hct] at ht
            rcases List.mem_cons.mp ht with h1 | h1
            · subst h1
              exact hsn
            · exact ih _ rest hnext hrec t h1
        · push_neg at hsn
          rcases hgood with hpos | ⟨hsov, hcsN, hclear⟩
          · exact absurd hpos (by omega)
          · obtain ⟨he_pos, he_le, hK⟩ :=
              chunkEnd_neg_spec p text start hcs hov hlt hsn hsov hcsN hclear
            have hslice : pySlice text start (chunkEnd p text start) = [] := by
              apply pySlice_eq_nil_of_le
              have hrs : (pyResolve text.length start : Int) =
                  (text.length : Int) + start :=
                pyResolve_int_neg _ _ hsn (by omega)
              have hre : (pyResolve text.length (chunkEnd p text start) : Int) =
                  chunkEnd p text start :=
                pyResolve_int_nonneg _ _ (by omega) (by omega)
              omega
            have hct : (stripChars
                (pySlice text start (chunkEnd p text start))).isEmpty = true := by
              rw [hslice]
              rfl
            rw [if_pos hct] at ht
            have hnext : GoodCursor p text
                (chunkEnd p text start - p.chunk_overlap) := by
              by_cases h0 : 0 ≤ chunkEnd p text start - p.chunk_overlap
              · exact Or.inl h0
              · exact Or.inr ⟨by omega, hcsN, hK⟩
            exact ih _ rest hnext hrec t ht
    · simp only [chunkIter, if_neg hc, Option.some.injEq] at h
      subst h
      cases ht

/-- Lookup of the `text` field of a chunk dictionary. -/
lemma baseChunk_lookup_text (ct : List Char) (s e : Int) :
    (baseChunk ct s e).lookup "text" = some (Val.s ct) := rfl

/-- Lookup of the `start_char` field of a chunk dictionary. -/
lemma baseChunk_lookup_start (ct : List Char) (s e : Int) :
    (baseChunk ct s e).lookup "start_char" = some (Val.i s) := rfl

/-- Lookup of the `end_char` field of a chunk dictionary. -/
lemma baseChunk_lookup_end (ct : List Char) (s e : Int) :
    (baseChunk ct s e).lookup "end_char" = some (Val.i e) := rfl

/-! ### C4: construction never validates the configuration -/

/-- C4: the specification says an invalid configuration
(`target_size ≤ 0`, `overlap < 0`, or `overlap ≥ target_size`) raises a
fatal error at construction time. The code's `__init__` merely stores the
two values: construction succeeds for every configuration, including
invalid ones, with the values stored verbatim (neither clamped nor
rejected), so the failure the spec demands never happens. -/
theorem init_accepts_invalid_config :
    DocumentProcessor.init 1000 1000 =
      { chunk_size := 1000, chunk_overlap := 1000 } ∧
    DocumentProcessor.init 0 0 = { chunk_size := 0, chunk_overlap := 0 } ∧
    DocumentProcessor.init (-5) (-1) =
      { chunk_size := -5, chunk_overlap := -1 } ∧
    ∀ (cs ov : Int), DocumentProcessor.init cs ov =
      { chunk_size := cs, chunk_overlap := ov } :=
  ⟨rfl, rfl, rfl, fun _ _ => rfl⟩

/-! ### C1: the loop does not always terminate -/

set_option maxRecDepth 40000 in
/-- On `nonprogressText` with `chunk_size = 150`, `overlap = 149` (a valid
configuration), the first iteration snaps the end from `150` back to `149`
(the `". "` at offsets 147–148 is the only match in the search window
`text[50:250]`). -/
lemma chunkEnd_nonprogress : chunkEnd ⟨150, 149⟩ nonprogressText 0 = 149 := by
  decide

set_option maxRecDepth 40000 in
/-- C1: the claim says chunking terminates for every configuration with
`target_size > 0` and `0 ≤ overlap < target_size`, the cursor strictly
increasing each iteration. On `nonprogressText` with the valid
configuration `(150, 149)` the cursor returns to `0` after each iteration
(`end` snaps to `149` and `149 - 149 = 0`), so no iteration budget ever
completes the loop: the `while` loop runs forever. -/
theorem chunk_text_nonterminating :
    ∀ fuel : Nat, chunkIter ⟨150, 149⟩ nonprogressText fuel 0 = none := by
  intro fuel
  have hlt : (0 : Int) < (nonprogressText.length : Int) := by decide
  induction fuel with
  | zero => simp [chunkIter, hlt]
  | succ f ih =>
    simp only [chunkIter, if_pos hlt, chunkEnd_nonprogress]
    norm_num [ih]

/-! ### C3: chunk offset invariant -/

/-- C3 (corrected): on input `"abc"` with `chunk_size = 5`, `overlap = 0`,
the single emitted chunk has `end_char = 5 > 3 = len(text)`, refuting the
claimed invariant `end_char ≤ len(text)`. -/
theorem chunk_offsets_cex :
    chunk_text ⟨5, 0⟩ (toL "abc") [] 1 = some [baseChunk (toL "abc") 0 5] ∧
    (baseChunk (toL "abc") 0 5).lookup "end_char" = some (Val.i 5) ∧
    ¬ ((5 : Int) ≤ ((toL "abc").length : Int)) := by
  refine ⟨by decide, by decide, by decide⟩

/-- C3 (amended): every chunk emitted by `chunk_text` (no metadata
supplied) satisfies `start_char < end_char` and
`end_char ≤ max(len(text), start_char + target_size)`, and under a valid
configuration (`0 ≤ overlap < target_size`) also `0 ≤ start_char`, as the
original invariant demands; only the claimed upper bound
`end_char ≤ len(text)` fails, for a final chunk whose window extends past
the end of the text, where `end_char = start_char + target_size`. -/
theorem chunk_offsets_inv (p : DocumentProcessor) (text : List Char)
    (fuel : Nat) (l : List (List (String × Val))) (d : List (String × Val))
    (s e : Int) (hcs : 0 < p.chunk_size)
    (h : chunk_text p text [] fuel = some l) (hd : d ∈ l)
    (hs : d.lookup "start_char" = some (Val.i s))
    (he : d.lookup "end_char" = some (Val.i e)) :
    s < e ∧ e ≤ max (text.length : Int) (s + p.chunk_size) ∧
      (0 ≤ p.chunk_overlap → p.chunk_overlap < p.chunk_size → 0 ≤ s) := by
  unfold chunk_text at h
  rcases hit : chunkIter p text fuel 0 with _ | l0
  · rw [hit] at h; cases h
  · rw [hit] at h
    simp only [Option.map_some', Option.some.injEq] at h
    subst h
    rcases List.mem_map.mp hd with ⟨t, htl, hdt⟩
    have hspec := chunkIter_mem_spec p text hcs fuel 0 l0 hit t htl
    simp only [List.isEmpty_nil, if_true] at hdt
    subst hdt
    rw [baseChunk_lookup_start] at hs
    rw [baseChunk_lookup_end] at he
    simp only [Option.some.injEq, Val.i.injEq] at hs he
    subst hs
    subst he
    exact ⟨hspec.1, hspec.2.1, fun hov hlt =>
      chunkIter_starts_nonneg p text hcs hov hlt fuel 0 l0
        (Or.inl (le_refl (0 : Int))) hit t htl⟩

/-- Witness for C3 (amended) at a concrete input. -/
theorem chunk_offsets_inv_witness :
    (0 : Int) < 5 ∧ (5 : Int) ≤ max ((toL "abc").length : Int) (0 + 5) ∧
      ((0 : Int) ≤ 0 → (0 : Int) < 5 → (0 : Int) ≤ 0) :=
  chunk_offsets_inv ⟨5, 0⟩ (toL "abc") 1 [baseChunk (toL "abc") 0 5]
    (baseChunk (toL "abc") 0 5) 0 5 (by decide) (by decide) (by decide)
    (by decide) (by decide)

/-! ### C2: the single-chunk case -/

/-- C2 (corrected): the claim says any non-empty text of length at most
`target_size` yields exactly one chunk. On `"ab"` with
`target_size = 2`, `overlap = 1` (so `len(text) = 2 ≤ 2`), the code emits
two chunks: after the first chunk `[0,2)` the cursor moves to
`2 - 1 = 1 < 2`, so a second chunk `"b"` with offsets `(1, 3)` is
emitted. -/
theorem chunk_text_single_cex :
    (toL "ab").length ≤ 2 ∧
    chunk_text ⟨2, 1⟩ (toL "ab") [] 2 =
      some [baseChunk (toL "ab") 0 2, baseChunk (toL "b") 1 3] ∧
    (chunk_text ⟨2, 1⟩ (toL "ab") [] 2).map List.length = some 2 := by
  refine ⟨by decide, by decide, by decide⟩

/-- C2 (amended): for every valid configuration and every text whose
stripped form is non-empty and whose length is at most
`target_size − overlap`, `chunk_text` emits exactly one chunk, whose text
is the stripped input and whose offsets `(0, target_size)` span the whole
text. -/
theorem chunk_text_single (p : DocumentProcessor) (text : List Char)
    (fuel : Nat) (hov : 0 ≤ p.chunk_overlap)
    (hlt : p.chunk_overlap < p.chunk_size)
    (hstrip : stripChars text ≠ [])
    (hlen : (text.length : Int) ≤ p.chunk_size - p.chunk_overlap)
    (hfuel : 1 ≤ fuel) :
    chunk_text p text [] fuel =
      some [baseChunk (stripChars text) 0 p.chunk_size] := by
  obtain ⟨f, rfl⟩ : ∃ f, fuel = f + 1 := ⟨fuel - 1, by omega⟩
  have htne : text ≠ [] := by
    intro h
    apply hstrip
    rw [h]
    rfl
  have hpos : (0 : Int) < (text.length : Int) := by
    have := List.length_pos.mpr htne
    exact_mod_cast this
  have hend : chunkEnd p text 0 = p.chunk_size := by
    simp only [chunkEnd]
    rw [if_neg (by omega : ¬ (0 + p.chunk_size < (text.length : Int)))]
    omega
  have hslice : pySlice text 0 p.chunk_size = text := by
    unfold pySlice pyResolve
    rw [if_neg (by omega : ¬ (p.chunk_size < 0)),
      if_neg (by omega : ¬ ((0 : Int) < 0))]
    have h1 : (0 : Int).toNat.min text.length = 0 := by simp
    have hcsle : text.length ≤ p.chunk_size.toNat := by omega
    have h2 : p.chunk_size.toNat.min text.length = text.length :=
      Nat.min_eq_right hcsle
    rw [h1, h2, List.take_length, List.drop_zero]
  have hie : (stripChars text).isEmpty = false := by
    cases hst : stripChars text with
    | nil => exact absurd hst hstrip
    | cons a as => rfl
  have hdone : chunkIter p text f (p.chunk_size - p.chunk_overlap) = some [] :=
    chunkIter_done p text f _ (by omega)
  have hiter : chunkIter p text (f + 1) 0 =
      some [(0, p.chunk_size, stripChars text)] := by
    simp only [chunkIter, if_pos hpos, hend, hslice, hdone, hie]
    simp
  unfold chunk_text
  rw [hiter]
  simp [baseChunk]

/-- Witness for C2 (amended) at a concrete input. -/
theorem chunk_text_single_witness :
    chunk_text ⟨3, 1⟩ (toL "ab") [] 1 = some [baseChunk (toL "ab") 0 3] := by
  have h := chunk_text_single ⟨3, 1⟩ (toL "ab") 1 (by decide) (by decide)
    (by decide) (by decide) (by decide)
  have hst : stripChars (toL "ab") = toL "ab" := by decide
  rw [hst] at h
  exact h

/-! ### C10: metadata merge via dict.update -/

/-- When the updating dict binds none of the three core keys,
`dict.update` leaves their bindings intact. -/
lemma dictUpdate_disjoint_lookups (ct : List Char) (s e : Int)
    (meta : List (String × Val)) (h1 : meta.lookup "text" = none)
    (h2 : meta.lookup "start_char" = none)
    (h3 : meta.lookup "end_char" = none) :
    (dictUpdate (baseChunk ct s e) meta).lookup "text" = some (Val.s ct) ∧
    (dictUpdate (baseChunk ct s e) meta).lookup "start_char" = some (Val.i s) ∧
    (dictUpdate (baseChunk ct s e) meta).lookup "end_char" = some (Val.i e) := by
  unfold dictUpdate baseChunk
  simp only [List.map_cons, List.map_nil, h1, h2, h3, List.cons_append,
    List.nil_append]
  exact ⟨rfl, rfl, rfl⟩

/-- C10: `chunk_text` merges the caller's metadata into each chunk
dictionary with `dict.update` after setting the core fields. With
metadata whose keys avoid `text`/`start_char`/`end_char`, every emitted
chunk's `text` field is the stripped slice `text[start_char:end_char]`;
but metadata containing one of those keys silently overwrites the field:
with metadata `{'text': "META"}` on input `"ab"`, the emitted chunk's
`text` field is `"META"`, not the extracted `"ab"`. -/
theorem chunk_metadata_merge :
    (∀ (p : DocumentProcessor) (text : List Char)
        (meta : List (String × Val)) (fuel : Nat)
        (l : List (List (String × Val))) (d : List (String × Val))
        (s e : Int),
      meta.lookup "text" = none → meta.lookup "start_char" = none →
      meta.lookup "end_char" = none → 0 < p.chunk_size →
      chunk_text p text meta fuel = some l → d ∈ l →
      d.lookup "start_char" = some (Val.i s) →
      d.lookup "end_char" = some (Val.i e) →
      d.lookup "text" = some (Val.s (stripChars (pySlice text s e)))) ∧
    chunk_text ⟨2, 0⟩ (toL "ab") [("text", Val.s (toL "META"))] 1 =
      some [[("text", Val.s (toL "META")), ("start_char", Val.i 0),
        ("end_char", Val.i 2)]] ∧
    stripChars (pySlice (toL "ab") 0 2) = toL "ab" ∧
    Val.s (toL "META") ≠ Val.s (toL "ab") := by
  refine ⟨?_, by decide, by decide, by decide⟩
  intro p text meta fuel l d s e h1 h2 h3 hcs h hd hs he
  unfold chunk_text at h
  rcases hit : chunkIter p text fuel 0 with _ | l0
  · rw [hit] at h; cases h
  · rw [hit] at h
    simp only [Option.map_some', Option.some.injEq] at h
    subst h
    rcases List.mem_map.mp hd with ⟨t, htl, hdt⟩
    have hspec := chunkIter_mem_spec p text hcs fuel 0 l0 hit t htl
    by_cases hme : meta.isEmpty
    · rw [if_pos hme] at hdt
      subst hdt
      rw [baseChunk_lookup_start] at hs
      rw [baseChunk_lookup_end] at he
      simp only [Option.some.injEq, Val.i.injEq] at hs he
      subst hs
      subst he
      rw [baseChunk_lookup_text, ← hspec.2.2.1]
    · rw [if_neg hme] at hdt
      subst hdt
      have hlook := dictUpdate_disjoint_lookups t.2.2 t.1 t.2.1 meta h1 h2 h3
      rw [hlook.2.1] at hs
      rw [hlook.2.2] at he
      simp only [Option.some.injEq, Val.i.injEq] at hs he
      subst hs
      subst he
      rw [hlook.1, ← hspec.2.2.1]

/-- Witness for C10 at a concrete input. -/
theorem chunk_metadata_merge_witness :
    (baseChunk (toL "ab") 0 2).lookup "text" =
      some (Val.s (stripChars (pySlice (toL "ab") 0 2))) :=
  chunk_metadata_merge.1 ⟨2, 0⟩ (toL "ab") [] 1 [baseChunk (toL "ab") 0 2]
    (baseChunk (toL "ab") 0 2) 0 2 rfl rfl rfl (by decide) (by decide)
    (by decide) (by decide) (by decide)

/-! ### C7: the text cleaner -/

/-- The head of the collapsed text in state `prevWs = true` is never a
space: a space seen in that state is skipped. -/
lemma collapseWsAux_true_head :
    ∀ (l : List Char) (c : Char),
      (collapseWsAux true l).head? = some c → isPySpace c = false := by
  intro l
  induction l with
  | nil => intro c h; cases h
  | cons a rest ih =>
    intro c h
    by_cases ha : isPySpace a
    · rw [show collapseWsAux true (a :: rest) = collapseWsAux true rest by
        simp [collapseWsAux, ha]] at h
      exact ih c h
    · rw [show collapseWsAux true (a :: rest) = a :: collapseWsAux false rest by
        simp [collapseWsAux, ha]] at h
      simp only [List.head?_cons, Option.some.injEq] at h
      subst h
      exact Bool.eq_false_iff.mpr ha

/-- The collapsed text never has two adjacent whitespace characters. -/
lemma collapseWsAux_chain :
    ∀ (l : List Char) (b : Bool),
      List.Chain' (fun x y => isPySpace x = false ∨ isPySpace y = false)
        (collapseWsAux b l) := by
  intro l
  induction l with
  | nil => intro b; cases b <;> exact List.chain'_nil
  | cons a rest ih =>
    intro b
    by_cases ha : isPySpace a
    · cases b with
      | true =>
        rw [show collapseWsAux true (a :: rest) = collapseWsAux true rest by
          simp [collapseWsAux, ha]]
        exact ih true
      | false =>
        rw [show collapseWsAux false (a :: rest) = ' ' :: collapseWsAux true rest by
          simp [collapseWsAux, ha]]
        refine List.chain'_cons'.mpr ⟨?_, ih true⟩
        intro y hy
        exact Or.inr (collapseWsAux_true_head rest y hy)
    · rw [show collapseWsAux b (a :: rest) = a :: collapseWsAux false rest by
        simp [collapseWsAux, ha]]
      refine List.chain'_cons'.mpr ⟨?_, ih false⟩
      intro y _
      exact Or.inl (Bool.eq_false_iff.mpr ha)

/-- The head of `dropWhile isPySpace` is never a space. -/
lemma dropWhile_ws_head :
    ∀ (l : List Char) (c : Char),
      (l.dropWhile isPySpace).head? = some c → isPySpace c = false := by
  intro l
  induction l with
  | nil => intro c h; cases h
  | cons a rest ih =>
    intro c h
    by_cases ha : isPySpace a
    · rw [List.dropWhile_cons_of_pos ha] at h
      exact ih c h
    · rw [List.dropWhile_cons_of_neg ha] at h
      simp only [List.head?_cons, Option.some.injEq] at h
      subst h
      exact Bool.eq_false_iff.mpr ha

/-- Removing trailing whitespace yields a prefix of the string. -/
lemma dropTrailingWs_isPre (l : List Char) : dropTrailingWs l <+: l := by
  unfold dropTrailingWs
  have h1 : l.reverse.dropWhile isPySpace <:+ l.reverse :=
    List.dropWhile_suffix _
  have h2 := List.reverse_prefix.mpr h1
  rwa [List.reverse_reverse] at h2

/-- `stripChars` only removes characters. -/
lemma stripChars_sublist (l : List Char) : List.Sublist (stripChars l) l := by
  unfold stripChars dropTrailingWs dropLeadingWs
  have h1 : List.Sublist ((l.dropWhile isPySpace).reverse.dropWhile isPySpace)
      (l.dropWhile isPySpace).reverse := List.dropWhile_sublist _
  have h2 := h1.reverse
  rw [List.reverse_reverse] at h2
  exact h2.trans (List.dropWhile_sublist _)

/-- The head of a stripped string is never a space. -/
lemma stripChars_head_not_ws (l : List Char) (c : Char)
    (h : (stripChars l).head? = some c) : isPySpace c = false := by
  unfold stripChars at h
  rcases dropTrailingWs_isPre (dropLeadingWs l) with ⟨t, ht⟩
  have hh : (dropLeadingWs l).head? = some c := by
    rw [← ht]
    cases hd : dropTrailingWs (dropLeadingWs l) with
    | nil => rw [hd] at h; cases h
    | cons x xs =>
      rw [hd] at h
      simp only [List.head?_cons, Option.some.injEq] at h
      subst h
      simp
  exact dropWhile_ws_head l c hh

/-- The last character of a stripped string is never a space. -/
lemma stripChars_getLast_not_ws (l : List Char) (c : Char)
    (h : (stripChars l).getLast? = some c) : isPySpace c = false := by
  unfold stripChars dropTrailingWs at h
  rw [List.getLast?_eq_head?_reverse, List.reverse_reverse] at h
  exact dropWhile_ws_head _ c h

/-- C7 (corrected): the claim says the cleaner's output has all whitespace
runs collapsed to single spaces. On input `"a @ b"` the collapse happens
before the deletion of `'@'`, and the output `"a  b"` contains two
adjacent spaces. -/
theorem clean_text_cex :
    clean_text (toL "a @ b") = toL "a  b" ∧
    (clean_text (toL "a @ b")).get? 1 = some ' ' ∧
    (clean_text (toL "a @ b")).get? 2 = some ' ' := by
  refine ⟨by decide, by decide, by decide⟩

/-- C7 (amended): the cleaner first collapses whitespace runs to single
spaces (the collapsed text has no two adjacent whitespace characters),
then deletes characters outside the allow-list rather than replacing them
(the output is a sublist of the collapsed text, every surviving character
is allowed), and trims the ends (the output neither starts nor ends with
whitespace); empty input yields empty output. Because deletion happens
after collapsing, the final output can contain adjacent spaces. -/
theorem clean_text_props :
    clean_text [] = [] ∧
    (∀ s : List Char, List.Chain'
      (fun x y => isPySpace x = false ∨ isPySpace y = false)
      (collapseWs s)) ∧
    (∀ s : List Char, List.Sublist (clean_text s) (collapseWs s)) ∧
    (∀ (s : List Char) (c : Char), c ∈ clean_text s → allowedChar c = true) ∧
    (∀ (s : List Char) (c : Char), (clean_text s).head? = some c →
      isPySpace c = false) ∧
    (∀ (s : List Char) (c : Char), (clean_text s).getLast? = some c →
      isPySpace c = false) := by
  refine ⟨rfl, fun s => collapseWsAux_chain s false, fun s => ?_,
    fun s c hc => ?_, fun s c hc => stripChars_head_not_ws _ c hc,
    fun s c hc => stripChars_getLast_not_ws _ c hc⟩
  · exact (stripChars_sublist _).trans (List.filter_sublist _)
  · have h1 : c ∈ (collapseWs s).filter allowedChar :=
      (stripChars_sublist _).subset hc
    exact List.of_mem_filter h1

/-- Witness for C7 (amended) at a concrete input. -/
theorem clean_text_props_witness :
    List.Sublist (clean_text (toL " a@b ")) (collapseWs (toL " a@b ")) :=
  clean_text_props.2.2.1 (toL " a@b ")

/-! ### C5: coverage of the emitted chunks -/

/-- On a text with no whitespace the window never contains a `[.!?]\s`
match, so the end is never snapped. -/
lemma chunkEnd_noWs (p : DocumentProcessor) (text : List Char) (start : Int)
    (hws : ∀ c ∈ text, isPySpace c = false) :
    chunkEnd p text start = start + p.chunk_size := by
  by_cases h : start + p.chunk_size < (text.length : Int)
  · simp only [chunkEnd, if_pos h]
    have hwnil : sentEndings (pySlice text (max start (start + p.chunk_size - 100))
        (start + p.chunk_size + 100)) 0 = [] :=
      sentEndingsAux_eq_nil_of_noWs _
        (fun c hc => hws c (pySlice_subset _ _ _ c hc)) none 0
    rw [hwnil]
    rfl
  · simp only [chunkEnd, if_neg h]

/-- A slice with `0 ≤ a < len` and `a < b` is non-empty. -/
lemma pySlice_ne_nil (l : List Char) (a b : Int) (h0 : 0 ≤ a)
    (ha : a < (l.length : Int)) (hab : a < b) : pySlice l a b ≠ [] := by
  unfold pySlice pyResolve
  rw [if_neg (by omega : ¬ (b < 0)), if_neg (by omega : ¬ (a < 0))]
  intro hnil
  have hlen := congrArg List.length hnil
  rw [List.length_drop, List.length_take] at hlen
  simp only [List.length_nil] at hlen
  have h1 : a.toNat < b.toNat.min l.length :=
    Nat.lt_min.mpr ⟨by omega, by omega⟩
  have h2 : b.toNat.min l.length ≤ l.length := Nat.min_le_right _ _
  have h3 : min (b.toNat.min l.length) l.length = b.toNat.min l.length :=
    Nat.min_eq_left h2
  have h4 : a.toNat.min l.length = a.toNat := Nat.min_eq_left (by omega)
  rw [h3, h4] at hlen
  omega

/-- Coverage invariant of the loop on whitespace-free text, for an
arbitrary non-negative cursor: the result is non-empty, its first chunk
starts at the cursor, each later chunk starts no later than its
predecessor ends, and the last chunk ends at or past the end of the
text. -/
lemma chunkIter_noWs_aux (p : DocumentProcessor) (text : List Char)
    (hcs : 0 < p.chunk_size) (hov : 0 ≤ p.chunk_overlap)
    (hlt : p.chunk_overlap < p.chunk_size)
    (hws : ∀ c ∈ text, isPySpace c = false) :
    ∀ (fuel : Nat) (start : Int) (l : List (Int × Int × List Char)),
      0 ≤ start → start < (text.length : Int) →
      chunkIter p text fuel start = some l →
      l ≠ [] ∧ l.head?.map (fun t => t.1) = some start ∧
      List.Chain' (fun a b => b.1 ≤ a.2.1) l ∧
      (∀ t, l.getLast? = some t → (text.length : Int) ≤ t.2.1) := by
  intro fuel
  induction fuel with
  | zero =>
    intro start l h0 hs h
    simp [chunkIter, hs] at h
  | succ f ih =>
    intro start l h0 hs h
    have hend := chunkEnd_noWs p text start hws
    have hsne : stripChars (pySlice text start (start + p.chunk_size)) ≠ [] := by
      have hne := pySlice_ne_nil text start (start + p.chunk_size) h0 hs (by omega)
      rcases List.exists_mem_of_ne_nil _ hne with ⟨c, hc⟩
      exact stripChars_ne_nil _ c hc (hws c (pySlice_subset _ _ _ c hc))
    have hie : (stripChars (pySlice text start (start + p.chunk_size))).isEmpty
        = false := by
      cases hst : stripChars (pySlice text start (start + p.chunk_size)) with
      | nil => exact absurd hst hsne
      | cons x xs => rfl
    rcases hrec : chunkIter p text f (start + p.chunk_size - p.chunk_overlap)
      with _ | rest
    · simp only [chunkIter, if_pos hs, hend, hie, hrec] at h
      exact Option.noConfusion h
    · simp only [chunkIter, if_pos hs, hend, hie, hrec, Bool.false_eq_true,
        if_false, Option.some.injEq] at h
      subst h
      by_cases hnext : start + p.chunk_size - p.chunk_overlap < (text.length : Int)
      · obtain ⟨ihne, ihhead, ihchain, ihlast⟩ :=
          ih (start + p.chunk_size - p.chunk_overlap) rest (by omega) hnext hrec
        refine ⟨by simp, by simp, ?_, ?_⟩
        · refine List.chain'_cons'.mpr ⟨?_, ihchain⟩
          intro b hb
          rcases hh : rest.head? with _ | hd
          · rw [hh] at hb; cases hb
          · rw [hh] at hb ihhead
            simp only [Option.map_some', Option.some.injEq] at ihhead
            have hb' : b = hd := by
              simp only [Option.mem_def, Option.some.injEq] at hb
              exact hb.symm
            subst hb'
            show b.1 ≤ start + p.chunk_size
            omega
        · intro t ht
          rcases rest with _ | ⟨r0, rrest⟩
          · exact absurd rfl ihne
          · rw [List.getLast?_cons_cons] at ht
            exact ihlast t ht
      · have hrdone : chunkIter p text f (start + p.chunk_size - p.chunk_overlap)
            = some [] := chunkIter_done _ _ _ _ hnext
        rw [hrec] at hrdone
        have hrnil : rest = [] := Option.some.inj hrdone
        subst hrnil
        refine ⟨by simp, by simp, List.chain'_singleton _, ?_⟩
        intro t ht
        simp only [List.getLast?_singleton, Option.some.injEq] at ht
        subst ht
        show (text.length : Int) ≤ start + p.chunk_size
        omega

/-- C5 (corrected): on `"a    b"` with `target_size = 2`, `overlap = 0`
(a valid configuration) the middle window `[2,4)` strips to the empty
string and is skipped, so the emitted chunks are `[(0,2), (4,6)]`: the
second chunk starts at `4 > 2`, the end of its predecessor, leaving the
gap `[2,4)` uncovered. -/
theorem chunk_coverage_cex :
    chunkIter ⟨2, 0⟩ (toL "a    b") 3 0 =
      some [(0, 2, toL "a"), (4, 6, toL "b")] ∧
    ¬ ((4 : Int) ≤ 2) := by
  refine ⟨by decide, by decide⟩

/-- C5 (amended): for every valid configuration and every non-empty text
containing no whitespace (so that no loop window strips to empty and no
chunk is skipped), the emitted chunk list — already in increasing
`start_char` order — covers `[0, len(text))` with no gaps: the first chunk
starts at `0`, each subsequent chunk starts at or before the previous
chunk's `end_char`, and the last chunk ends at or past `len(text)`. For
texts with whitespace-only windows the skipped windows can leave gaps. -/
theorem chunk_coverage_noWs (p : DocumentProcessor) (text : List Char)
    (fuel : Nat) (l : List (Int × Int × List Char))
    (hcs : 0 < p.chunk_size) (hov : 0 ≤ p.chunk_overlap)
    (hlt : p.chunk_overlap < p.chunk_size)
    (htne : text ≠ []) (hws : ∀ c ∈ text, isPySpace c = false)
    (h : chunkIter p text fuel 0 = some l) :
    l ≠ [] ∧ l.head?.map (fun t => t.1) = some 0 ∧
    List.Chain' (fun a b => b.1 ≤ a.2.1) l ∧
    (∀ t, l.getLast? = some t → (text.length : Int) ≤ t.2.1) := by
  have hpos : (0 : Int) < (text.length : Int) := by
    have := List.length_pos.mpr htne
    exact_mod_cast this
  exact chunkIter_noWs_aux p text hcs hov hlt hws fuel 0 l (by omega) hpos h

/-- Witness for C5 (amended) at a concrete input. -/
theorem chunk_coverage_noWs_witness :
    ([(0, 2, toL "ab"), (1, 3, toL "bc"), (2, 4, toL "c")] :
      List (Int × Int × List Char)).head?.map (fun t => t.1) = some 0 :=
  (chunk_coverage_noWs ⟨2, 1⟩ (toL "abc") 3 _ (by decide) (by decide)
    (by decide) (by decide) (by decide) (by decide)).2.1

/-! ### C6: sentence-boundary snapping on the specification's scenario -/

/-- Length of the scenario text: `6 + 2000 + 4`. -/
lemma scenarioText_length : scenarioText.length = 2010 := by
  rw [scenarioText, List.length_append, List.length_append,
    List.length_replicate, show (toL "A. B. ").length = 6 from rfl,
    show (toL ". C.").length = 4 from rfl]

/-- A middle slice of the scenario text (inside the `"x"*2000` block) is a
block of `x`s. -/
lemma scenario_slice_mid (a b : Nat) (h6 : 6 ≤ a) (hab : a ≤ b)
    (hb : b ≤ 2006) :
    pySlice scenarioText (a : Int) (b : Int) = List.replicate (b - a) 'x' := by
  have hres_a : pyResolve scenarioText.length (a : Int) = a := by
    unfold pyResolve
    rw [if_neg (by omega : ¬ ((a : Int) < 0)), Int.toNat_natCast,
      scenarioText_length]
    exact Nat.min_eq_left (by omega)
  have hres_b : pyResolve scenarioText.length (b : Int) = b := by
    unfold pyResolve
    rw [if_neg (by omega : ¬ ((b : Int) < 0)), Int.toNat_natCast,
      scenarioText_length]
    exact Nat.min_eq_left (by omega)
  unfold pySlice
  rw [hres_a, hres_b]
  rw [show scenarioText = (toL "A. B. " ++ List.replicate 2000 'x') ++ toL ". C."
    from by rw [scenarioText, List.append_assoc]]
  rw [List.take_append_eq_append_take]
  rw [show (toL "A. B. " ++ List.replicate 2000 'x').length = 2006 from by
    rw [List.length_append, List.length_replicate,
      show (toL "A. B. ").length = 6 from rfl]]
  rw [show b - 2006 = 0 from by omega, List.take_zero, List.append_nil]
  rw [List.take_append_eq_append_take]
  rw [show (toL "A. B. ").length = 6 from rfl]
  rw [List.take_of_length_le (show (toL "A. B. ").length ≤ b from by
    rw [show (toL "A. B. ").length = 6 from rfl]; omega)]
  rw [List.take_replicate, show min (b - 6) 2000 = b - 6 from by omega]
  rw [List.drop_append_eq_append_drop]
  rw [show (toL "A. B. ").length = 6 from rfl]
  rw [List.drop_eq_nil_of_le (show (toL "A. B. ").length ≤ a from by
    rw [show (toL "A. B. ").length = 6 from rfl]; omega)]
  rw [List.nil_append, List.drop_replicate]
  congr 1
  omega

/-- An initial slice of the scenario text keeps the `"A. B. "` intro. -/
lemma scenario_slice_head (b : Nat) (h6 : 6 ≤ b) (hb : b ≤ 2006) :
    pySlice scenarioText 0 (b : Int) =
      toL "A. B. " ++ List.replicate (b - 6) 'x' := by
  have hres_0 : pyResolve scenarioText.length 0 = 0 := by
    unfold pyResolve
    rw [if_neg (by omega : ¬ ((0 : Int) < 0))]
    simp
  have hres_b : pyResolve scenarioText.length (b : Int) = b := by
    unfold pyResolve
    rw [if_neg (by omega : ¬ ((b : Int) < 0)), Int.toNat_natCast,
      scenarioText_length]
    exact Nat.min_eq_left (by omega)
  unfold pySlice
  rw [hres_0, hres_b, List.drop_zero]
  rw [show scenarioText = (toL "A. B. " ++ List.replicate 2000 'x') ++ toL ". C."
    from by rw [scenarioText, List.append_assoc]]
  rw [List.take_append_eq_append_take]
  rw [show (toL "A. B. " ++ List.replicate 2000 'x').length = 2006 from by
    rw [List.length_append, List.length_replicate,
      show (toL "A. B. ").length = 6 from rfl]]
  rw [show b - 2006 = 0 from by omega, List.take_zero, List.append_nil]
  rw [List.take_append_eq_append_take]
  rw [show (toL "A. B. ").length = 6 from rfl]
  rw [List.take_of_length_le (show (toL "A. B. ").length ≤ b from by
    rw [show (toL "A. B. ").length = 6 from rfl]; omega)]
  rw [List.take_replicate, show min (b - 6) 2000 = b - 6 from by omega]

/-- The final slice `text[1600:2600]` of the scenario text. -/
lemma scenario_slice_tail :
    pySlice scenarioText 1600 2600 =
      List.replicate 406 'x' ++ toL ". C." := by
  have hres_a : pyResolve scenarioText.length 1600 = 1600 := by
    unfold pyResolve
    rw [if_neg (by omega : ¬ ((1600 : Int) < 0)), scenarioText_length]
    rfl
  have hres_b : pyResolve scenarioText.length 2600 = 2010 := by
    unfold pyResolve
    rw [if_neg (by omega : ¬ ((2600 : Int) < 0)), scenarioText_length]
    rfl
  unfold pySlice
  rw [hres_a, hres_b, ← scenarioText_length, List.take_length]
  rw [show scenarioText = (toL "A. B. " ++ List.replicate 2000 'x') ++ toL ". C."
    from by rw [scenarioText, List.append_assoc]]
  rw [List.drop_append_eq_append_drop]
  rw [show (toL "A. B. " ++ List.replicate 2000 'x').length = 2006 from by
    rw [List.length_append, List.length_replicate,
      show (toL "A. B. ").length = 6 from rfl]]
  rw [show (1600 : Nat) - 2006 = 0 from by omega, List.drop_zero]
  rw [List.drop_append_eq_append_drop]
  rw [show (toL "A. B. ").length = 6 from rfl]
  rw [List.drop_eq_nil_of_le (show (toL "A. B. ").length ≤ 1600 from by
    rw [show (toL "A. B. ").length = 6 from rfl]; omega)]
  rw [List.nil_append, List.drop_replicate]

/-- The scanner finds nothing in a block of `x`s. -/
lemma sentEndings_replicate_x (n i : Nat) :
    sentEndings (List.replicate n 'x') i = [] :=
  sentEndingsAux_eq_nil_of_noWs _
    (fun c hc => by rw [List.eq_of_mem_replicate hc]; rfl) none i

/-- The scenario's first search window `text[900:1100]` is all `x`s: no
sentence terminator occurs within 100 characters of offset 1000. -/
lemma scenario_window1 : pySlice scenarioText 900 1100 = List.replicate 200 'x' := by
  have h := scenario_slice_mid 900 1100 (by omega) (by omega) (by omega)
  rw [show (1100 : Nat) - 900 = 200 from rfl] at h
  exact_mod_cast h

/-- The scenario's second search window `text[1700:1900]` is all `x`s. -/
lemma scenario_window2 : pySlice scenarioText 1700 1900 = List.replicate 200 'x' := by
  have h := scenario_slice_mid 1700 1900 (by omega) (by omega) (by omega)
  rw [show (1900 : Nat) - 1700 = 200 from rfl] at h
  exact_mod_cast h

/-- Length of the scenario text, as an integer. -/
lemma scenarioText_length_int : (scenarioText.length : Int) = 2010 := by
  rw [scenarioText_length]
  rfl

/-- The loop end when the window holds no match: the tentative end is
kept. -/
lemma chunkEnd_eq_of_no_match (p : DocumentProcessor) (text : List Char)
    (start : Int) (h : start + p.chunk_size < (text.length : Int))
    (hwin : sentEndings (pySlice text (max start (start + p.chunk_size - 100))
      (start + p.chunk_size + 100)) 0 = []) :
    chunkEnd p text start = start + p.chunk_size := by
  simp only [chunkEnd, if_pos h, hwin]
  rfl

/-- The loop end when the tentative end is at or past the end of the
text: no snapping. -/
lemma chunkEnd_eq_of_past_end (p : DocumentProcessor) (text : List Char)
    (start : Int) (h : ¬ (start + p.chunk_size < (text.length : Int))) :
    chunkEnd p text start = start + p.chunk_size := by
  simp only [chunkEnd, if_neg h]

/-- One emitting loop iteration, as an equation. -/
lemma chunkIter_step_emit (p : DocumentProcessor) (text : List Char)
    (fuel : Nat) (start : Int) (rest : List (Int × Int × List Char))
    (hs : start < (text.length : Int))
    (hie : (stripChars (pySlice text start (chunkEnd p text start))).isEmpty
      = false)
    (hrec : chunkIter p text fuel (chunkEnd p text start - p.chunk_overlap)
      = some rest) :
    chunkIter p text (fuel + 1) start =
      some ((start, chunkEnd p text start,
        stripChars (pySlice text start (chunkEnd p text start))) :: rest) := by
  simp only [chunkIter, if_pos hs, hrec, hie, Bool.false_eq_true, if_false]

/-- First iteration of the scenario: no match in the window, so the end
stays at the unsnapped tentative end `1000`. -/
lemma scenario_end0 : chunkEnd ⟨1000, 200⟩ scenarioText 0 = 1000 := by
  have h := chunkEnd_eq_of_no_match ⟨1000, 200⟩ scenarioText 0
    (by rw [scenarioText_length_int]; norm_num) ?_
  · rw [h]
    norm_num
  · rw [show max (0 : Int) (0 + 1000 - 100) = 900 from by norm_num,
      show (0 : Int) + 1000 + 100 = 1100 from by norm_num,
      scenario_window1]
    exact sentEndings_replicate_x 200 0

/-- Second iteration of the scenario: cursor `800`, again no match. -/
lemma scenario_end800 : chunkEnd ⟨1000, 200⟩ scenarioText 800 = 1800 := by
  have h := chunkEnd_eq_of_no_match ⟨1000, 200⟩ scenarioText 800
    (by rw [scenarioText_length_int]; norm_num) ?_
  · rw [h]
    norm_num
  · rw [show max (800 : Int) (800 + 1000 - 100) = 1700 from by norm_num,
      show (800 : Int) + 1000 + 100 = 1900 from by norm_num,
      scenario_window2]
    exact sentEndings_replicate_x 200 0

/-- Third iteration of the scenario: the tentative end `2600` is past the
end of the text, so no snapping happens. -/
lemma scenario_end1600 : chunkEnd ⟨1000, 200⟩ scenarioText 1600 = 2600 := by
  have h := chunkEnd_eq_of_past_end ⟨1000, 200⟩ scenarioText 1600
    (by rw [scenarioText_length_int]; norm_num)
  rw [h]
  norm_num

/-- The scenario's first chunk text is non-empty after stripping. -/
lemma scenario_ct0_ne : stripChars (pySlice scenarioText 0 1000) ≠ [] := by
  have h := scenario_slice_head 1000 (by omega) (by omega)
  rw [show (1000 : Nat) - 6 = 994 from rfl] at h
  rw [show pySlice scenarioText 0 1000 =
    toL "A. B. " ++ List.replicate 994 'x' from h]
  refine stripChars_ne_nil _ 'x' ?_ rfl
  exact List.mem_append_right _ (List.mem_replicate.mpr ⟨by omega, rfl⟩)

/-- The scenario's second chunk text is non-empty after stripping. -/
lemma scenario_ct800_ne : stripChars (pySlice scenarioText 800 1800) ≠ [] := by
  have h := scenario_slice_mid 800 1800 (by omega) (by omega) (by omega)
  rw [show (1800 : Nat) - 800 = 1000 from rfl] at h
  rw [show pySlice scenarioText 800 1800 =
    List.replicate 1000 'x' from h]
  refine stripChars_ne_nil _ 'x' ?_ rfl
  exact List.mem_replicate.mpr ⟨by omega, rfl⟩

/-- The scenario's third chunk text is non-empty after stripping. -/
lemma scenario_ct1600_ne : stripChars (pySlice scenarioText 1600 2600) ≠ [] := by
  rw [scenario_slice_tail]
  refine stripChars_ne_nil _ 'x' ?_ rfl
  exact List.mem_append_left _ (List.mem_replicate.mpr ⟨by omega, rfl⟩)

/-- Emptiness flag of a non-empty list. -/
lemma isEmpty_false_of_ne_nil {l : List Char} (h : l ≠ []) :
    l.isEmpty = false := by
  cases hl : l with
  | nil => exact absurd hl h
  | cons x xs => rfl

/-- The complete scenario run: chunks `[0,1000)`, `[800,1800)`,
`[1600,2600)`, cursor then `2400 ≥ 2010`. -/
lemma scenario_run :
    chunkIter ⟨1000, 200⟩ scenarioText 4 0 =
      some [(0, 1000, stripChars (pySlice scenarioText 0 1000)),
        (800, 1800, stripChars (pySlice scenarioText 800 1800)),
        (1600, 2600, stripChars (pySlice scenarioText 1600 2600))] := by
  have hov : (⟨1000, 200⟩ : DocumentProcessor).chunk_overlap = 200 := rfl
  have h1 : chunkIter ⟨1000, 200⟩ scenarioText 1 2400 = some [] :=
    chunkIter_done _ _ _ _ (by rw [scenarioText_length_int]; norm_num)
  have h2 : chunkIter ⟨1000, 200⟩ scenarioText 2 1600 =
      some [(1600, 2600, stripChars (pySlice scenarioText 1600 2600))] := by
    have h := chunkIter_step_emit ⟨1000, 200⟩ scenarioText 1 1600 []
      (by rw [scenarioText_length_int]; norm_num)
      (by rw [scenario_end1600]
          exact isEmpty_false_of_ne_nil scenario_ct1600_ne)
      (by rw [scenario_end1600, hov,
            show (2600 : Int) - 200 = 2400 from by norm_num]
          exact h1)
    rw [scenario_end1600] at h
    exact h
  have h3 : chunkIter ⟨1000, 200⟩ scenarioText 3 800 =
      some [(800, 1800, stripChars (pySlice scenarioText 800 1800)),
        (1600, 2600, stripChars (pySlice scenarioText 1600 2600))] := by
    have h := chunkIter_step_emit ⟨1000, 200⟩ scenarioText 2 800
      [(1600, 2600, stripChars (pySlice scenarioText 1600 2600))]
      (by rw [scenarioText_length_int]; norm_num)
      (by rw [scenario_end800]
          exact isEmpty_false_of_ne_nil scenario_ct800_ne)
      (by rw [scenario_end800, hov,
            show (1800 : Int) - 200 = 1600 from by norm_num]
          exact h2)
    rw [scenario_end800] at h
    exact h
  have h := chunkIter_step_emit ⟨1000, 200⟩ scenarioText 3 0
    [(800, 1800, stripChars (pySlice scenarioText 800 1800)),
      (1600, 2600, stripChars (pySlice scenarioText 1600 2600))]
    (by rw [scenarioText_length_int]; norm_num)
    (by rw [scenario_end0]
        exact isEmpty_false_of_ne_nil scenario_ct0_ne)
    (by rw [scenario_end0, hov,
          show (1000 : Int) - 200 = 800 from by norm_num]
        exact h3)
  rw [scenario_end0] at h
  exact h

/-- C6 (corrected): on the specification's scenario input
(`"A. B. " + "x"*2000 + ". C."`, `target_size = 1000`, `overlap = 200`)
the first chunk's `end_char` is exactly `1000`: the claim that it is
snapped to just after a `". "` occurrence, and is not exactly `1000`,
fails because the search window `text[900:1100]` contains no
sentence-terminator match at all. -/
theorem snap_scenario_cex :
    (chunkIter ⟨1000, 200⟩ scenarioText 4 0).map
        (fun l => l.head?.map (fun t => t.2.1)) = some (some 1000) ∧
    sentEndings (pySlice scenarioText 900 1100) 0 = [] := by
  refine ⟨?_, by rw [scenario_window1]; exact sentEndings_replicate_x 200 0⟩
  rw [scenario_run]
  rfl

/-- C6 (amended): when the tentative end falls before the end of the text,
the end is snapped to just past the last `[.!?]\s` match in the window
`text[max(start, end−100) : end+100]`, and is left at the tentative end
when no match exists. In the specification's scenario the window
`text[900:1100]` is inside the `"x"*2000 block`, has no match, and so the
first chunk's `end_char` is exactly `1000` (the no-match case); the full
run emits chunks `[0,1000)`, `[800,1800)`, `[1600,2600)`. -/
theorem snap_scenario :
    sentEndings (pySlice scenarioText 900 1100) 0 = [] ∧
    chunkEnd ⟨1000, 200⟩ scenarioText 0 = 1000 ∧
    (chunkIter ⟨1000, 200⟩ scenarioText 4 0).map
        (fun l => l.map (fun t => (t.1, t.2.1))) =
      some [(0, 1000), (800, 1800), (1600, 2600)] := by
  refine ⟨by rw [scenario_window1]; exact sentEndings_replicate_x 200 0,
    scenario_end0, ?_⟩
  rw [scenario_run]
  rfl

/-! ### C8: prompt fidelity -/

/-- A string occurs in itself. -/
lemma occursIn_refl (a : List Char) : occursIn a a := ⟨[], [], by simp⟩

/-- Occurrence composes through containment. -/
lemma occursIn_trans {a b c : List Char} (h1 : occursIn a b)
    (h2 : occursIn b c) : occursIn a c := by
  rcases h1 with ⟨u1, v1, hb⟩
  rcases h2 with ⟨u2, v2, hc⟩
  exact ⟨u2 ++ u1, v1 ++ v2, by rw [hc, hb]; simp [List.append_assoc]⟩

/-- Joining two consecutive parts. -/
lemma intercalate_cons_cons (sep x y : List Char) (rest : List (List Char)) :
    List.intercalate sep (x :: y :: rest) =
      x ++ sep ++ List.intercalate sep (y :: rest) := by
  simp [List.intercalate, List.intersperse, List.append_assoc]

/-- Joining a single part. -/
lemma intercalate_single (sep x : List Char) :
    List.intercalate sep [x] = x := by
  simp [List.intercalate, List.intersperse]

/-- Every part occurs verbatim in the joined context string. -/
lemma occursIn_intercalate (sep : List Char) :
    ∀ (parts : List (List Char)) (p : List Char), p ∈ parts →
      occursIn p (List.intercalate sep parts) := by
  intro parts
  induction parts with
  | nil => intro p h; cases h
  | cons x rest ih =>
    intro p hp
    rcases List.mem_cons.mp hp with h | h
    · subst h
      cases rest with
      | nil => rw [intercalate_single]; exact occursIn_refl p
      | cons y t =>
        rw [intercalate_cons_cons]
        exact ⟨[], sep ++ List.intercalate sep (y :: t),
          by simp [List.append_assoc]⟩
    · cases rest with
      | nil => cases h
      | cons y t =>
        rw [intercalate_cons_cons]
        refine occursIn_trans (ih p h) ⟨x ++ sep, [], by
          simp [List.append_assoc]⟩

/-- The title appears verbatim in a chunk's context block. -/
lemma occursIn_part_title (j : Nat) (c : RetrievedChunk) :
    occursIn c.metadata.title (contextPart j c) :=
  ⟨toL "[Source " ++ toL (Nat.repr j) ++ toL ": ",
    toL " (" ++ c.metadata.arxiv_id ++ toL ")]\n" ++ c.text ++ toL "\n",
    by simp [contextPart, List.append_assoc]⟩

/-- The document id appears verbatim in a chunk's context block. -/
lemma occursIn_part_id (j : Nat) (c : RetrievedChunk) :
    occursIn c.metadata.arxiv_id (contextPart j c) :=
  ⟨toL "[Source " ++ toL (Nat.repr j) ++ toL ": " ++ c.metadata.title ++
    toL " (", toL ")]\n" ++ c.text ++ toL "\n",
    by simp [contextPart, List.append_assoc]⟩

/-- The chunk text appears verbatim in its context block. -/
lemma occursIn_part_text (j : Nat) (c : RetrievedChunk) :
    occursIn c.text (contextPart j c) :=
  ⟨toL "[Source " ++ toL (Nat.repr j) ++ toL ": " ++ c.metadata.title ++
    toL " (" ++ c.metadata.arxiv_id ++ toL ")]\n", toL "\n",
    by simp [contextPart, List.append_assoc]⟩

/-- One block per chunk: nothing dropped or deduplicated. -/
lemma contextParts_length : ∀ (cs : List RetrievedChunk) (j : Nat),
    (contextParts j cs).length = cs.length := by
  intro cs
  induction cs with
  | nil => intro j; rfl
  | cons c rest ih =>
    intro j
    simp [contextParts, ih (j + 1)]

/-- The `i`-th block is built from the `i`-th chunk (input order kept). -/
lemma contextParts_get? : ∀ (cs : List RetrievedChunk) (j i : Nat),
    (contextParts j cs).get? i = (cs.get? i).map (contextPart (j + i)) := by
  intro cs
  induction cs with
  | nil => intro j i; rfl
  | cons c rest ih =>
    intro j i
    cases i with
    | zero => rfl
    | succ i' =>
      show (contextParts (j + 1) rest).get? i' = _
      rw [ih (j + 1) i']
      rw [show j + 1 + i' = j + (i' + 1) from by omega]
      rfl

/-- C8: `build_prompt` is a pure function of its inputs whose result
contains the literal query and, for every chunk, its title, document id
and text verbatim; the per-chunk blocks appear in input order (the `i`-th
block is built from the `i`-th chunk), are joined by the fixed separator
`"\n---\n"`, and none is dropped, reordered, or deduplicated (one block
per chunk, each occurring verbatim in the prompt). -/
theorem build_prompt_fidelity :
    ∀ (query : List Char) (cs : List RetrievedChunk),
      occursIn query (build_prompt query cs) ∧
      (contextParts 1 cs).length = cs.length ∧
      (∀ (i : Nat) (c : RetrievedChunk) (part : List Char),
        cs.get? i = some c → (contextParts 1 cs).get? i = some part →
        part = contextPart (1 + i) c ∧
        occursIn c.metadata.title part ∧
        occursIn c.metadata.arxiv_id part ∧
        occursIn c.text part ∧
        occursIn part (build_prompt query cs)) := by
  intro query cs
  refine ⟨⟨promptIntro ++ List.intercalate sepLine (contextParts 1 cs) ++
    promptQuestion, promptInstr, by simp [build_prompt, List.append_assoc]⟩,
    contextParts_length cs 1, ?_⟩
  intro i c part hc hp
  have hmem : part ∈ contextParts 1 cs := List.get?_mem hp
  rw [contextParts_get?, hc] at hp
  simp only [Option.map_some', Option.some.injEq] at hp
  have hctx : occursIn part
      (List.intercalate sepLine (contextParts 1 cs)) :=
    occursIn_intercalate sepLine _ part hmem
  have hprompt : occursIn (List.intercalate sepLine (contextParts 1 cs))
      (build_prompt query cs) :=
    ⟨promptIntro, promptQuestion ++ query ++ promptInstr,
      by simp [build_prompt, List.append_assoc]⟩
  subst hp
  exact ⟨rfl, occursIn_part_title _ c, occursIn_part_id _ c,
    occursIn_part_text _ c, occursIn_trans hctx hprompt⟩

/-- Witness for C8 at a concrete input. -/
theorem build_prompt_fidelity_witness :
    occursIn (toL "Ti")
      (contextPart 1 ⟨toL "tx", ⟨toL "Ti", toL "1234.5"⟩, 3⟩) :=
  ((build_prompt_fidelity (toL "What is X?")
    [⟨toL "tx", ⟨toL "Ti", toL "1234.5"⟩, 3⟩]).2.2 0
    ⟨toL "tx", ⟨toL "Ti", toL "1234.5"⟩, 3⟩
    (contextPart 1 ⟨toL "tx", ⟨toL "Ti", toL "1234.5"⟩, 3⟩) rfl rfl).2.1

/-! ### C9: retrieval adapter shape handling -/

/-- An in-range index always yields a value. -/
lemma exists_getElem_eq {α : Type} (l : List α) (i : Nat)
    (h : i < l.length) : ∃ x, l[i]? = some x :=
  ⟨l[i], List.getElem?_eq_getElem h⟩

/-- Good path of the loop: when every visited index is in range for all
three lists, the loop returns one chunk per index, fields paired
positionally. -/
lemma retrieveLoop_ok (r : QueryResults) (docs0 : List (List Char))
    (metas0 : List ChunkMeta) (restM : List (List ChunkMeta))
    (dists0 : List Int) (restD : List (List Int))
    (hm : r.metadatas = some (metas0 :: restM))
    (hd : r.distances = some (dists0 :: restD)) :
    ∀ is : List Nat,
      (∀ i ∈ is, i < docs0.length ∧ i < metas0.length ∧ i < dists0.length) →
      retrieveLoop r docs0 is = Except.ok (is.map (fun i =>
        { text := docs0[i]?.getD []
          metadata := metas0[i]?.getD { title := [], arxiv_id := [] }
          distance := dists0[i]?.getD 0 })) := by
  intro is
  induction is with
  | nil => intro _; rfl
  | cons j rest ih =>
    intro hall
    obtain ⟨hjd, hjm, hjdist⟩ := hall j (List.mem_cons_self _ _)
    obtain ⟨tj, htd⟩ := exists_getElem_eq docs0 j hjd
    obtain ⟨mj, htm⟩ := exists_getElem_eq metas0 j hjm
    obtain ⟨dj, htdist⟩ := exists_getElem_eq dists0 j hjdist
    have hrest := ih (fun i hi => hall i (List.mem_cons_of_mem _ hi))
    simp only [retrieveLoop, htd, hm, hd, List.getElem?_cons_zero, htm,
      htdist, hrest, List.map_cons]
    simp [htd, htm, htdist]

/-- Error path of the loop: if some visited index is in range for the
documents but out of range for the metadata or distances, the loop
escapes with an exception (it never returns a truncated list). -/
lemma retrieveLoop_error (r : QueryResults) (docs0 : List (List Char))
    (metas0 : List ChunkMeta) (restM : List (List ChunkMeta))
    (dists0 : List Int) (restD : List (List Int))
    (hm : r.metadatas = some (metas0 :: restM))
    (hd : r.distances = some (dists0 :: restD)) :
    ∀ is : List Nat,
      (∀ i ∈ is, i < docs0.length) →
      (∃ i ∈ is, metas0.length ≤ i ∨ dists0.length ≤ i) →
      exceptIsError (retrieveLoop r docs0 is) = true := by
  intro is
  induction is with
  | nil =>
    intro _ hex
    rcases hex with ⟨i, hi, _⟩
    cases hi
  | cons j rest ih =>
    intro hlt hex
    obtain ⟨tj, hjd⟩ := exists_getElem_eq docs0 j (hlt j (List.mem_cons_self _ _))
    by_cases hjm : metas0.length ≤ j
    · have hnone : metas0[j]? = none := List.getElem?_eq_none hjm
      simp [retrieveLoop, hjd, hm, hd, hnone, exceptIsError]
    · by_cases hjdist : dists0.length ≤ j
      · obtain ⟨mj, hsome⟩ := exists_getElem_eq metas0 j (by omega)
        have hnone : dists0[j]? = none := List.getElem?_eq_none hjdist
        simp [retrieveLoop, hjd, hm, hd, hsome, hnone, exceptIsError]
      · rcases hex with ⟨i, hi, hbad⟩
        have hirest : i ∈ rest := by
          rcases List.mem_cons.mp hi with h | h
          · subst h; omega
          · exact h
        have hrest_err := ih (fun i hi' => hlt i (List.mem_cons_of_mem _ hi'))
          ⟨i, hirest, hbad⟩
        obtain ⟨mj, hsm⟩ := exists_getElem_eq metas0 j (by omega)
        obtain ⟨dj, hsd⟩ := exists_getElem_eq dists0 j (by omega)
        rcases hrec : retrieveLoop r docs0 rest with e | tail
        · simp [retrieveLoop, hjd, hm, hd, hsm, hsd, hrec, exceptIsError]
        · rw [hrec] at hrest_err
          simp [exceptIsError] at hrest_err

/-- C9: malformed or partial index results make `retrieve_context` escape
with an exception — a hard failure, never a truncated or empty list: a
missing `documents` key raises `KeyError` and an empty `documents` array
raises `IndexError`; with at least one result position, a missing
`metadatas`/`distances` key raises `KeyError` and an empty
`metadatas`/`distances` array raises `IndexError`; with the three arrays
present, a length mismatch between the documents list and the metadata or
distances list raises an exception as well. With well-formed arrays it
returns one chunk per result position, in the index's order, pairing
fields positionally. -/
theorem retrieve_context_shape :
    (∀ r : QueryResults, r.documents = none →
      retrieve_context r = Except.error PyErr.keyError) ∧
    (∀ r : QueryResults, r.documents = some [] →
      retrieve_context r = Except.error PyErr.indexError) ∧
    (∀ (r : QueryResults) (docs0 : List (List Char))
       (restDoc : List (List (List Char))),
      r.documents = some (docs0 :: restDoc) → docs0 ≠ [] →
      (r.metadatas = none →
        retrieve_context r = Except.error PyErr.keyError) ∧
      (r.metadatas = some [] →
        retrieve_context r = Except.error PyErr.indexError) ∧
      (∀ (metas0 : List ChunkMeta) (restM : List (List ChunkMeta)),
        r.metadatas = some (metas0 :: restM) → metas0 ≠ [] →
        (r.distances = none →
          retrieve_context r = Except.error PyErr.keyError) ∧
        (r.distances = some [] →
          retrieve_context r = Except.error PyErr.indexError))) ∧
    (∀ (r : QueryResults) (docs0 : List (List Char))
       (restDoc : List (List (List Char))) (metas0 : List ChunkMeta)
       (restM : List (List ChunkMeta)) (dists0 : List Int)
       (restD : List (List Int)),
      r.documents = some (docs0 :: restDoc) →
      r.metadatas = some (metas0 :: restM) →
      r.distances = some (dists0 :: restD) →
      ((metas0.length < docs0.length ∨ dists0.length < docs0.length) →
        exceptIsError (retrieve_context r) = true) ∧
      (docs0.length ≤ metas0.length → docs0.length ≤ dists0.length →
        retrieve_context r = Except.ok (wellFormedChunks docs0 metas0 dists0) ∧
        (wellFormedChunks docs0 metas0 dists0).length = docs0.length ∧
        (∀ (i : Nat) (t : List Char) (m : ChunkMeta) (d : Int),
          docs0[i]? = some t → metas0[i]? = some m →
          dists0[i]? = some d →
          (wellFormedChunks docs0 metas0 dists0)[i]? =
            some { text := t, metadata := m, distance := d }))) := by
  refine ⟨?_, ?_, ?_, ?_⟩
  · intro r h
    simp [retrieve_context, h]
  · intro r h
    simp [retrieve_context, h]
  · intro r docs0 restDoc hdoc hne
    cases docs0 with
    | nil => exact absurd rfl hne
    | cons t0 ds =>
      have hunfold : retrieve_context r =
          retrieveLoop r (t0 :: ds) (List.range (t0 :: ds).length) := by
        simp [retrieve_context, hdoc]
      refine ⟨?_, ?_, ?_⟩
      · intro hm
        rw [hunfold, List.length_cons, List.range_succ_eq_map]
        simp [retrieveLoop, hm]
      · intro hm
        rw [hunfold, List.length_cons, List.range_succ_eq_map]
        simp [retrieveLoop, hm]
      · intro metas0 restM hm hmne
        cases metas0 with
        | nil => exact absurd rfl hmne
        | cons m0 ms =>
          refine ⟨?_, ?_⟩
          · intro hd
            rw [hunfold, List.length_cons, List.range_succ_eq_map]
            simp [retrieveLoop, hm, hd]
          · intro hd
            rw [hunfold, List.length_cons, List.range_succ_eq_map]
            simp [retrieveLoop, hm, hd]
  · intro r docs0 restDoc metas0 restM dists0 restD hdoc hm hd
    have hunfold : retrieve_context r =
        retrieveLoop r docs0 (List.range docs0.length) := by
      simp [retrieve_context, hdoc]
    constructor
    · intro hmis
      rw [hunfold]
      refine retrieveLoop_error r docs0 metas0 restM dists0 restD hm hd _
        (fun i hi => List.mem_range.mp hi) ?_
      rcases hmis with hmis | hmis
      · exact ⟨metas0.length, List.mem_range.mpr hmis, Or.inl le_rfl⟩
      · exact ⟨dists0.length, List.mem_range.mpr hmis, Or.inr le_rfl⟩
    · intro hlm hld
      have hok := retrieveLoop_ok r docs0 metas0 restM dists0 restD hm hd
        (List.range docs0.length)
        (fun i hi => by
          have := List.mem_range.mp hi
          exact ⟨this, by omega, by omega⟩)
      refine ⟨by rw [hunfold, hok]; rfl, by simp [wellFormedChunks], ?_⟩
      intro i t m d ht hmm hdd
      have hi : i < docs0.length := by
        by_contra hge
        rw [List.getElem?_eq_none (by omega)] at ht
        cases ht
      unfold wellFormedChunks
      simp [hi, ht, hmm, hdd]

/-- Witness for C9 at concrete inputs: a result dict with no `documents`
key, one with one document but no `metadatas` key, and one with a
mismatched (short) metadata list. -/
theorem retrieve_context_shape_witness :
    retrieve_context ⟨none, none, none⟩ = Except.error PyErr.keyError ∧
    retrieve_context ⟨some [[toL "t1"]], none, some [[3]]⟩ =
      Except.error PyErr.keyError ∧
    exceptIsError (retrieve_context ⟨some [[toL "t1", toL "t2"]],
      some [[⟨toL "T1", toL "a1"⟩]], some [[3, 7]]⟩) = true :=
  ⟨retrieve_context_shape.1 ⟨none, none, none⟩ rfl,
   (retrieve_context_shape.2.2.1 ⟨some [[toL "t1"]], none, some [[3]]⟩
      [toL "t1"] [] rfl (List.cons_ne_nil _ _)).1 rfl,
   (retrieve_context_shape.2.2.2 _ [toL "t1", toL "t2"] []
      [⟨toL "T1", toL "a1"⟩] [] [3, 7] [] rfl rfl rfl).1 (by decide)⟩

end RPA
